import Mathlib

/-!
Verification of the channel-chat transcript pipeline.

This file gives a shallow embedding of the core transcript-processing code:
the caption parsers (`parseVtt`, `parseSrt`), the rolling-caption
deduplicator (`deduplicateVttSegments`), the transcript normalizer
(`normalizeSegments` / `mergeShortSegments`), the token-bounded chunker
(`chunkTranscript`) and the retrieval ranker (`search`,
`searchTranscriptsRank`), together with theorems about them.

Modelling conventions:
* JavaScript strings are modelled as `List Char` (`Text`).
* JavaScript numbers are modelled as exact rationals `ℚ`; where `NaN` can
  arise (timestamp parsing via `parseInt` / `parseFloat`) numbers are
  modelled as `Option ℚ` (`JsNum`), with `none` playing the role of `NaN`.
* The GPT tokenizer (`countTokens` in chunker.ts) and the embedding /
  vector-index collaborators are external; functions that use them are
  parameterised by the data those collaborators supply (a token-count
  function, candidate rows).
-/

/-- Text is the model of a JavaScript string. -/
abbrev Text := List Char

/-- Whitespace characters recognised by the embedding of JS `trim` and `\s`
(the common subset actually occurring in caption files). -/
def isSpaceJs (c : Char) : Bool :=
  c = ' ' || c = '\t' || c = '\n' || c = '\r'

/-- Model of JavaScript `String.prototype.trim`. -/
def trimJs (l : Text) : Text :=
  ((l.dropWhile isSpaceJs).reverse.dropWhile isSpaceJs).reverse

/-- Model of JavaScript `str.split(sep)` for a single-character separator. -/
def splitChar (sep : Char) : Text → List Text
  | [] => [[]]
  | c :: rest =>
    let r := splitChar sep rest
    if c = sep then [] :: r else (c :: r.headD []) :: r.tail

/-- Model of JavaScript `arr.join(' ')`. -/
def joinSpace : List Text → Text
  | [] => []
  | [t] => t
  | t :: ts => t ++ ' ' :: joinSpace ts

/-- Index of the first occurrence of `pat` in `l` (JS `indexOf`), `none` if
`pat` does not occur. -/
def findSub (l pat : Text) : Option Nat :=
  if pat.isPrefixOf l then some 0
  else
    match l with
    | [] => none
    | _ :: t => (findSub t pat).map (· + 1)

/-- Model of JavaScript `str.includes(pat)`. -/
def containsStr (l pat : Text) : Bool :=
  (findSub l pat).isSome

/-- Model of JavaScript `str.replace(c, r)` with a one-character string
pattern: only the first occurrence is replaced. -/
def replaceFirst (c r : Char) : Text → Text
  | [] => []
  | x :: rest => if x = c then r :: rest else x :: replaceFirst c r rest

/-- Helper for `stripTags` / `stripBraces`: scans the text; outside a
bracket the characters pass through, after an opening bracket characters are
buffered until the closing bracket.  A buffered group `open …nonempty… close`
is dropped; an unclosed or empty group is emitted unchanged.  This is
behaviourally the JS global replace of `open [^close]+ close` by the empty
string. -/
def stripGroups (opn cls : Char) : Text → Option Text → Text
  | [], none => []
  | [], some buf => opn :: buf.reverse
  | c :: rest, none =>
    if c = opn then stripGroups opn cls rest (some [])
    else c :: stripGroups opn cls rest none
  | c :: rest, some buf =>
    if c = cls then
      if buf.isEmpty then opn :: cls :: stripGroups opn cls rest none
      else stripGroups opn cls rest none
    else stripGroups opn cls rest (some (c :: buf))

/-- Model of the JS replace of `<[^>]+>` by the empty string (VTT/SRT tag
stripping). -/
def stripTags (l : Text) : Text := stripGroups '<' '>' l none

/-- Model of the JS replace of brace-bracketed groups by the empty string
(SRT markup stripping). -/
def stripBraces (l : Text) : Text := stripGroups '\x7b' '\x7d' l none

/-- Join a list of texts with the separator between consecutive elements. -/
def interc (sep : Text) : List Text → Text
  | [] => []
  | [b] => b
  | b :: bs => b ++ sep ++ interc sep bs

/-- Worker for `splitBlocks`: `pending` counts the newlines seen since the
last other character.  A run of two or more newlines is a block separator
(the JS split on one-or-more blank lines); a single newline stays inside the
block. -/
def sbGo : Text → Text → Nat → List Text
  | [], cur, pending =>
    if 2 ≤ pending then [cur.reverse, []]
    else [(List.replicate pending '\n' ++ cur).reverse]
  | c :: rest, cur, pending =>
    if c = '\n' then sbGo rest cur (pending + 1)
    else if 2 ≤ pending then cur.reverse :: sbGo rest [c] 0
    else sbGo rest (c :: (List.replicate pending '\n' ++ cur)) 0

/-- Model of the JS split of SRT content on runs of two or more newlines. -/
def splitBlocks (l : Text) : List Text := sbGo l [] 0

/-- Numeric value of a list of decimal digit characters (most significant
first). -/
def digitsVal (l : Text) : Nat :=
  l.foldl (fun acc c => acc * 10 + (c.toNat - 48)) 0

/-- Model of JavaScript `parseInt(s, 10)`: skip leading whitespace, optional
sign, then read decimal digits, ignoring the rest; `none` models `NaN`
(no digits). -/
def parseIntJS (l : Text) : Option Int :=
  let l1 := l.dropWhile isSpaceJs
  let neg : Bool := l1.headD ' ' = '-'
  let l2 : Text := if l1.headD ' ' = '-' || l1.headD ' ' = '+' then l1.tail else l1
  let ds := l2.takeWhile Char.isDigit
  if ds.isEmpty then none
  else some (if neg then -(digitsVal ds : Int) else (digitsVal ds : Int))

/-- Model of JavaScript `parseFloat(s)` restricted to plain decimal
literals (no exponents — none occur in caption timestamps): skip leading
whitespace, optional sign, integer digits, optional point and fraction
digits; `none` models `NaN`. -/
def parseFloatJS (l : Text) : Option ℚ :=
  let l1 := l.dropWhile isSpaceJs
  let neg : Bool := l1.headD ' ' = '-'
  let l2 : Text := if l1.headD ' ' = '-' || l1.headD ' ' = '+' then l1.tail else l1
  let ds := l2.takeWhile Char.isDigit
  let l3 := l2.drop ds.length
  let fs : Text := if l3.headD ' ' = '.' then l3.tail.takeWhile Char.isDigit else []
  if ds.isEmpty && fs.isEmpty then none
  else
    let v : ℚ := (digitsVal ds : ℚ) + (digitsVal fs : ℚ) / ((10 : ℚ) ^ fs.length)
    some (if neg then -v else v)

/-- Decimal rendering of a natural number (fuel-based so that it reduces by
evaluation). -/
def natToTextGo : Nat → Nat → Text
  | 0, _ => []
  | fuel + 1, n =>
    if n < 10 then [Nat.digitChar n]
    else natToTextGo fuel (n / 10) ++ [Nat.digitChar (n % 10)]

/-- Decimal rendering of a natural number. -/
def natToText (n : Nat) : Text := natToTextGo (n + 1) n

/-- Decimal rendering of an integer. -/
def intToText (i : Int) : Text :=
  if i < 0 then '-' :: natToText i.natAbs else natToText i.toNat

/-- Model of JavaScript `Math.round` (half away from zero rounds toward
positive infinity in JS, which is floor of x + 1/2). -/
def jsRound (q : ℚ) : Int := (q + 1 / 2).floor

/-- JavaScript numbers where `NaN` can occur: `none` is `NaN`. -/
abbrev JsNum := Option ℚ

/-- NaN-propagating addition. -/
def jsAdd : JsNum → JsNum → JsNum
  | some a, some b => some (a + b)
  | _, _ => none

/-- NaN-propagating multiplication. -/
def jsMul : JsNum → JsNum → JsNum
  | some a, some b => some (a * b)
  | _, _ => none

/-! ## Transcriber embedding (src/transcriber.ts) -/

/-- A transcript segment (`Segment` in transcriber.ts / chunker.ts).  The
time type is a parameter: `ℚ` for the pipeline stages, `Option ℚ` for the
parsers where JS `NaN` can arise. -/
structure Seg (τ : Type) where
  text : Text
  start_time : τ
  end_time : τ
deriving DecidableEq, Repr

/-- Segment with exact rational times. -/
abbrev SegQ := Seg ℚ

/-- Segment as produced by the caption parsers (times may be `NaN`). -/
abbrev SegJ := Seg JsNum

/-- Errors thrown by the transcriber; the timestamp-format error carries
the raw offending string, as in the JS `Error` message. -/
inductive TranscriberError where
  | timestampFormat (raw : Text)
deriving DecidableEq, Repr

deriving instance DecidableEq for Except

/-- Embedding of `parseVttTimestamp`.  Splits the trimmed input on `:`;
three parts are hours/minutes/seconds, two parts minutes/seconds, anything
else throws with the raw input.  `parseInt`/`parseFloat` never throw: bad
numeric content propagates as `NaN` (`none`). -/
def parseVttTimestamp (timestamp : Text) : Except TranscriberError JsNum :=
  let parts := splitChar ':' (trimJs timestamp)
  match parts with
  | [p0, p1, p2] =>
    let hours := (parseIntJS p0).map (fun i => (i : ℚ))
    let minutes := (parseIntJS p1).map (fun i => (i : ℚ))
    let seconds := parseFloatJS p2
    .ok (jsAdd (jsAdd (jsMul hours (some 3600)) (jsMul minutes (some 60))) seconds)
  | [p0, p1] =>
    let minutes := (parseIntJS p0).map (fun i => (i : ℚ))
    let seconds := parseFloatJS p1
    .ok (jsAdd (jsAdd (jsMul (some 0) (some 3600)) (jsMul minutes (some 60))) seconds)
  | _ => .error (.timestampFormat timestamp)

/-- Embedding of `parseSrtTimestamp`.  The first comma of the trimmed input
becomes a decimal point, then the text splits on `:`; exactly three parts
are required, otherwise it throws with the raw input. -/
def parseSrtTimestamp (timestamp : Text) : Except TranscriberError JsNum :=
  let normalized := replaceFirst ',' '.' (trimJs timestamp)
  let parts := splitChar ':' normalized
  match parts with
  | [p0, p1, p2] =>
    let hours := (parseIntJS p0).map (fun i => (i : ℚ))
    let minutes := (parseIntJS p1).map (fun i => (i : ℚ))
    let seconds := parseFloatJS p2
    .ok (jsAdd (jsAdd (jsMul hours (some 3600)) (jsMul minutes (some 60))) seconds)
  | _ => .error (.timestampFormat timestamp)

/-- New text of one deduplicator step: the trimmed remainder after the
previous text when the previous text is a prefix of the current text, the
trimmed remainder after its first occurrence when it occurs elsewhere
inside, and the whole text otherwise. -/
def dedupNewText (prevText text : Text) : Text :=
  if !prevText.isEmpty && prevText.isPrefixOf text then
    trimJs (text.drop prevText.length)
  else if !prevText.isEmpty && containsStr text prevText then
    trimJs (text.drop ((findSub text prevText).getD 0 + prevText.length))
  else text

/-- Loop of `deduplicateVttSegments`: `prevText` is the previous segment's
original text; only non-empty new text is emitted, and `prevText` becomes
the current original text regardless. -/
def dedupLoop {τ : Type} (prevText : Text) : List (Seg τ) → List (Seg τ)
  | [] => []
  | segment :: rest =>
    let newText := dedupNewText prevText segment.text
    if newText.isEmpty then dedupLoop segment.text rest
    else ⟨newText, segment.start_time, segment.end_time⟩ :: dedupLoop segment.text rest

/-- Embedding of `deduplicateVttSegments` (transcriber.ts).  The explicit
empty-input early return of the source coincides with the general loop. -/
def deduplicateVttSegments {τ : Type} (segments : List (Seg τ)) : List (Seg τ) :=
  dedupLoop [] segments

/-- The arrow separator of caption timestamp lines. -/
def arrowT : Text := ['-', '-', '>']

/-- Character class of the VTT timestamp regex `[\d:.]`. -/
def isVttTsChar (c : Char) : Bool := c.isDigit || c = ':' || c = '.'

/-- Character class of the SRT timestamp regex `[\d:,]`. -/
def isSrtTsChar (c : Char) : Bool := c.isDigit || c = ':' || c = ','

/-- Attempt to match `(cls+)\s*-->\s*(cls+)` at the start of `l`.  Both
character runs are greedy; since `-` and whitespace are outside the class no
backtracking into the runs can succeed, so this is the JS regex semantics at
a fixed start position. -/
def tsTryAt (cls : Char → Bool) (l : Text) : Option (Text × Text) :=
  let r1 := l.takeWhile cls
  if r1.isEmpty then none
  else
    let l1 := (l.dropWhile cls).dropWhile isSpaceJs
    if arrowT.isPrefixOf l1 then
      let l2 := (l1.drop 3).dropWhile isSpaceJs
      let r2 := l2.takeWhile cls
      if r2.isEmpty then none else some (r1, r2)
    else none

/-- First (leftmost) match of the timestamp-pair regex in `l`, as JS
`String.prototype.match` without the global flag. -/
def tsMatchFirst (cls : Char → Bool) : Text → Option (Text × Text)
  | [] => none
  | c :: rest =>
    match tsTryAt cls (c :: rest) with
    | some r => some r
    | none => tsMatchFirst cls rest

/-- Test of the inline-timestamp regex `\d{2}:\d{2}` used by the VTT cue
text filter. -/
def hasInlineTs : Text → Bool
  | a :: b :: c :: d :: e :: rest =>
    (a.isDigit && b.isDigit && c = ':' && d.isDigit && e.isDigit) ||
      hasInlineTs (b :: c :: d :: e :: rest)
  | _ => false

/-- Whether a VTT cue text line counts as carrying inline timestamps
(contains a `<c>` tag or matches `\d{2}:\d{2}`). -/
def vttHasInline (l : Text) : Bool :=
  containsStr l ['<', 'c', '>'] || hasInlineTs l

/-- State of the VTT cue loop: scanning for a timestamp line, or collecting
the text lines of the cue whose times are `st`/`en` (with `acc` the text
lines kept so far). -/
inductive VttState where
  | scanning
  | collecting (st en : JsNum) (acc : List Text)

/-- One emitted cue: the kept text lines joined with spaces and trimmed;
nothing is emitted when that is empty. -/
def vttEmit (st en : JsNum) (acc : List Text) : List SegJ :=
  let text := trimJs (joinSpace acc)
  if text.isEmpty then [] else [⟨text, st, en⟩]

/-- Cue loop of `parseVtt` as a state machine over the remaining lines.
In the source this is the `while` loop with index arithmetic; each
iteration consumes exactly one line. -/
def vttLoop : List Text → VttState → Except TranscriberError (List SegJ)
  | [], .scanning => .ok []
  | [], .collecting st en acc => .ok (vttEmit st en acc)
  | l :: rest, .scanning =>
    let t := trimJs l
    if t.isEmpty then vttLoop rest .scanning
    else if !containsStr t arrowT &&
        (match rest with | nxt :: _ => containsStr nxt arrowT | [] => false) then
      -- cue-identifier line immediately before a timestamp line: skipped
      vttLoop rest .scanning
    else if containsStr t arrowT then
      match tsMatchFirst isVttTsChar t with
      | some (g1, g2) => do
        let st ← parseVttTimestamp g1
        let en ← parseVttTimestamp g2
        vttLoop rest (.collecting st en [])
      | none => vttLoop rest .scanning
    else vttLoop rest .scanning
  | l :: rest, .collecting st en acc =>
    if (trimJs l).isEmpty then do
      let tail ← vttLoop rest .scanning
      .ok (vttEmit st en acc ++ tail)
    else if containsStr l arrowT then do
      -- the cue ends just before this timestamp line, which is then
      -- processed as in the scanning state
      let tail ←
        match tsMatchFirst isVttTsChar (trimJs l) with
        | some (g1, g2) => do
          let st2 ← parseVttTimestamp g1
          let en2 ← parseVttTimestamp g2
          vttLoop rest (.collecting st2 en2 [])
        | none => vttLoop rest .scanning
      .ok (vttEmit st en acc ++ tail)
    else
      -- only lines with inline timestamps are kept; a plain line is
      -- cleaned but never pushed (the push is guarded by the inline test)
      let acc' := if vttHasInline l then acc ++ [trimJs (stripTags l)] else acc
      vttLoop rest (.collecting st en acc')

/-- Lines following the `WEBVTT` header line, or all lines when no header
line is present (the source leaves the start index at 0 then). -/
def vttAfterHeader (lines : List Text) : List Text :=
  match lines.findIdx? (fun l =>
      decide (trimJs l = ['W', 'E', 'B', 'V', 'T', 'T']) ||
      (['W', 'E', 'B', 'V', 'T', 'T', ' '].isPrefixOf (trimJs l))) with
  | some i => lines.drop (i + 1)
  | none => lines

/-- Embedding of `parseVtt` on file content: split into lines, skip the
header and metadata up to the first line containing `-->`, run the cue
loop, then deduplicate rolling captions. -/
def parseVtt (content : Text) : Except TranscriberError (List SegJ) :=
  let lines := splitChar '\n' content
  let start := (vttAfterHeader lines).dropWhile (fun l => !containsStr (trimJs l) arrowT)
  (vttLoop start .scanning).map deduplicateVttSegments

/-- First line containing `-->` together with the following lines;
`none` when no line contains the arrow.  The lines before it are used only
to locate it and are discarded, as in the source. -/
def findArrow : List Text → Option (Text × List Text)
  | [] => none
  | l :: rest => if containsStr l arrowT then some (l, rest) else findArrow rest

/-- Block loop of `parseSrt`: each block is trimmed and split into lines;
blocks with fewer than two lines, without a timestamp line or whose
timestamp line does not match the regex are skipped; the text after the
timestamp line is joined with spaces, tag- and brace-stripped and trimmed,
and dropped when empty. -/
def srtBlocks : List Text → Except TranscriberError (List SegJ)
  | [] => .ok []
  | b :: bs =>
    let lines := splitChar '\n' (trimJs b)
    if lines.length < 2 then srtBlocks bs
    else
      match findArrow lines with
      | none => srtBlocks bs
      | some (tsLine, after) =>
        match tsMatchFirst isSrtTsChar tsLine with
        | none => srtBlocks bs
        | some (g1, g2) => do
          let startTime ← parseSrtTimestamp g1
          let endTime ← parseSrtTimestamp g2
          let text := trimJs (stripBraces (stripTags (joinSpace after)))
          let rest ← srtBlocks bs
          .ok (if text.isEmpty then rest else ⟨text, startTime, endTime⟩ :: rest)

/-- Embedding of `parseSrt` on file content: trim, split into blocks on
blank lines, process each block. -/
def parseSrt (content : Text) : Except TranscriberError (List SegJ) :=
  srtBlocks (splitBlocks (trimJs content))

/-! ## Normalizer embedding (normalizeSegments / mergeShortSegments) -/

/-- Collapse of runs of whitespace to single spaces (the JS global replace
of `\s+` by a space). -/
def collapseWs : Text → Text
  | [] => []
  | [c] => if isSpaceJs c then [' '] else [c]
  | c1 :: c2 :: rest =>
    if isSpaceJs c1 && isSpaceJs c2 then collapseWs (c2 :: rest)
    else (if isSpaceJs c1 then ' ' else c1) :: collapseWs (c2 :: rest)

/-- Cleaning and time-repair pass of `normalizeSegments`: whitespace is
collapsed and trimmed (empty texts are dropped); a start time past the end
time is swapped with it, an equal one pushes the end time 0.1s out. -/
def normalizeClean : List SegQ → List SegQ
  | [] => []
  | segment :: rest =>
    let text := trimJs (collapseWs segment.text)
    if text.isEmpty then normalizeClean rest
    else
      let startTime := segment.start_time
      let endTime := segment.end_time
      let (startTime, endTime) :=
        if startTime ≥ endTime then
          if startTime > endTime then (endTime, startTime)
          else (startTime, startTime + 0.1)
        else (startTime, endTime)
      ⟨text, startTime, endTime⟩ :: normalizeClean rest

/-- One merged segment: text concatenated with a single space, end time
taken from the absorbed next segment. -/
def absorbSeg (cur nextSeg : SegQ) : SegQ :=
  ⟨cur.text ++ ' ' :: nextSeg.text, cur.start_time, nextSeg.end_time⟩

/-- Loop of `mergeShortSegments` with `cur` the accumulated current
segment: while the accumulated segment is shorter than `minDuration` and
the gap to the next segment is at most `mergeThreshold`, the next segment
is absorbed; otherwise the accumulated segment is pushed. -/
def mergeLoop (minDuration mergeThreshold : ℚ) (cur : SegQ) : List SegQ → List SegQ
  | [] => [cur]
  | nextSeg :: rest =>
    if cur.end_time - cur.start_time < minDuration &&
        nextSeg.start_time - cur.end_time ≤ mergeThreshold then
      mergeLoop minDuration mergeThreshold (absorbSeg cur nextSeg) rest
    else
      cur :: mergeLoop minDuration mergeThreshold nextSeg rest

/-- Embedding of `mergeShortSegments` (transcriber.ts). -/
def mergeShortSegments (segments : List SegQ) (minDuration mergeThreshold : ℚ) : List SegQ :=
  match segments with
  | [] => []
  | s :: rest => mergeLoop minDuration mergeThreshold s rest

/-- Embedding of `normalizeSegments` (transcriber.ts); source defaults are
`minDuration = 0.5`, `mergeThreshold = 1.0`.  The empty-input early return
of the source coincides with the general path. -/
def normalizeSegments (segments : List SegQ) (minDuration mergeThreshold : ℚ) : List SegQ :=
  let normalized := normalizeClean segments
  if minDuration > 0 then mergeShortSegments normalized minDuration mergeThreshold
  else normalized

/-! ## Chunker embedding (chunkTranscript, src/chunker.ts)

The token counter `countTokens` wraps the external GPT tokenizer; the
embedding takes it as a parameter `tok` (the spec's pluggable
`count_tokens`). -/

/-- A chunk as produced by `chunkTranscript`. -/
structure Chunk where
  text : Text
  start_time : ℚ
  end_time : ℚ
  seq : Nat
deriving DecidableEq, Repr

/-- Chunk construction from a non-empty run of segments: title prefix,
texts joined with single spaces, times spanning first to last segment. -/
def mkChunk (videoTitle : Text) (segs : List SegQ) (seq : Nat) : Chunk :=
  { text := videoTitle ++ ' ' :: '|' :: ' ' :: joinSpace (segs.map (·.text))
    start_time := (segs.headD ⟨[], 0, 0⟩).start_time
    end_time := (segs.getLastD ⟨[], 0, 0⟩).end_time
    seq := seq }

/-- Backward overlap walk (the `for (let j = …; j--)` loop): segments are
taken from the end while they fit in the budget; the first segment that
does not fit is still taken when nothing fits, then the walk stops. -/
def walkAux (tok : Text → Nat) (budget : Nat) : List SegQ → List SegQ → Nat → List SegQ × Nat
  | [], acc, t => (acc, t)
  | s :: rs, acc, t =>
    let st := tok s.text
    if t + st ≤ budget then walkAux tok budget rs (s :: acc) (t + st)
    else if acc.isEmpty then (s :: acc, t + st)
    else (acc, t)

/-- Overlap carry-over of a just-closed chunk: trailing segments totalling
at most `budget` tokens, but always at least one. -/
def overlapWalk (tok : Text → Nat) (budget : Nat) (segs : List SegQ) : List SegQ × Nat :=
  walkAux tok budget segs.reverse [] 0

/-- A chunk together with the segments it was built from and whether it was
emitted by the oversized-segment branch.  `chunkTranscript` projects the
chunk; the extra fields instrument the loop for the theorems. -/
structure TChunk where
  chunk : Chunk
  segs : List SegQ
  oversized : Bool
deriving DecidableEq, Repr

/-- Main loop of `chunkTranscript`.  Each iteration consumes one input
segment: an oversized segment meeting an empty current chunk is emitted
alone; a segment that would overflow a non-empty current chunk closes it
and seeds the next one with the overlap carry-over before being added; any
other segment is appended.  Remaining segments form a final chunk. -/
def chunkLoop (tok : Text → Nat) (videoTitle : Text) (targetTokens overlapTokens : Nat) :
    List SegQ → List SegQ → Nat → Nat → List TChunk
  | [], cur, _, seq =>
    if cur.isEmpty then [] else [⟨mkChunk videoTitle cur seq, cur, false⟩]
  | segment :: rest, cur, curTok, seq =>
    let segTok := tok segment.text
    if segTok > targetTokens && cur.isEmpty then
      ⟨mkChunk videoTitle [segment] seq, [segment], true⟩ ::
        chunkLoop tok videoTitle targetTokens overlapTokens rest [] 0 (seq + 1)
    else if curTok + segTok > targetTokens && !cur.isEmpty then
      let ov := overlapWalk tok overlapTokens cur
      ⟨mkChunk videoTitle cur seq, cur, false⟩ ::
        chunkLoop tok videoTitle targetTokens overlapTokens rest
          (ov.1 ++ [segment]) (ov.2 + segTok) (seq + 1)
    else
      chunkLoop tok videoTitle targetTokens overlapTokens rest
        (cur ++ [segment]) (curTok + segTok) seq

/-- Instrumented chunking: the list of emitted chunks with their segment
runs.  Source defaults are `targetTokens = 800`, `overlapPct = 0.15`. -/
def chunkGroups (tok : Text → Nat) (segments : List SegQ) (videoTitle : Text)
    (targetTokens : Nat) (overlapPct : ℚ) : List TChunk :=
  let overlapTokens : Nat := (((targetTokens : ℚ) * overlapPct).floor).toNat
  chunkLoop tok videoTitle targetTokens overlapTokens segments [] 0 0

/-- Embedding of `chunkTranscript` (chunker.ts).  The empty-input early
return of the source coincides with the general loop. -/
def chunkTranscript (tok : Text → Nat) (segments : List SegQ) (videoTitle : Text)
    (targetTokens : Nat) (overlapPct : ℚ) : List Chunk :=
  (chunkGroups tok segments videoTitle targetTokens overlapPct).map (·.chunk)

/-! ## Ranker embedding (search.ts `search` and mcp-handler.ts
`searchTranscripts`)

The embedding covers the pure result post-processing of both search paths;
query embedding, the SQL vector lookup (`searchChunks`, which the database
returns ordered by ascending distance) and the Vectorize lookup are
external collaborators supplying the candidate rows. -/

/-- A candidate row as returned by the local database collaborator
(`searchChunks`): chunk metadata plus a cosine distance. -/
structure DbRow where
  text : Text
  video_title : Text
  video_id : Text
  channel_name : Text
  start_time : ℚ
  end_time : ℚ
  distance : ℚ
deriving DecidableEq, Repr

/-- A formatted search result of search.ts. -/
structure SearchResult where
  text : Text
  video_title : Text
  video_id : Text
  channel_name : Text
  start_time : ℚ
  end_time : ℚ
  youtube_url : Text
  score : ℚ
deriving DecidableEq, Repr

/-- Embedding of the result-formatting loop of `search` (search.ts): strip
the `"{title}: "` text marker when present, derive `score = 1 - distance`,
build the watch URL with the rounded start time.  Candidate order is
preserved. -/
def search (rows : List DbRow) : List SearchResult :=
  rows.map fun row =>
    let titleMarker := row.video_title ++ [':', ' ']
    let text := if titleMarker.isPrefixOf row.text
      then row.text.drop titleMarker.length else row.text
    let score := 1 - row.distance
    let youtubeTime := jsRound row.start_time
    { text := text
      video_title := row.video_title
      video_id := row.video_id
      channel_name := row.channel_name
      start_time := row.start_time
      end_time := row.end_time
      youtube_url := "https://youtube.com/watch?v=".data ++ row.video_id ++
        "&t=".data ++ intToText youtubeTime
      score := score }

/-- A Vectorize match (id and similarity score), as supplied by the
external vector index to `searchTranscripts`. -/
structure VectorMatch where
  id : Text
  score : ℚ
deriving DecidableEq, Repr

/-- A chunk row from the D1 database as joined by `searchTranscripts`. -/
structure ChunkRow where
  id : Int
  vectorize_id : Option Text
  text : Text
  start_time : Option ℚ
  end_time : Option ℚ
  video_id : Text
  video_title : Text
  channel_id : Text
  channel_name : Text
  r2_video_key : Option Text
deriving DecidableEq, Repr

/-- A formatted result of `searchTranscripts` (only the fields the ranking
manipulates; the markdown rendering is presentation). -/
structure FormattedResult where
  chunk_id : Int
  score : ℚ
  text : Text
  start_time : ℚ
  end_time : ℚ
  video_id : Text
  video_title : Text
  channel_id : Text
  channel_name : Text
deriving DecidableEq, Repr

/-- Score lookup in the id-to-score map built from the matches; a missing
id scores 0.  Later entries overwrite earlier ones, as JS `Map.set`. -/
def scoreLookup (vms : List VectorMatch) (k : Text) : ℚ :=
  ((vms.foldl (fun acc m => if m.id = k then some m.score else acc) none).getD 0)

/-- The result record `searchTranscripts` builds for one chunk row. -/
def buildResult (vms : List VectorMatch) (chunk : ChunkRow) : FormattedResult :=
  let score := scoreLookup vms (chunk.vectorize_id.getD [])
  let startTime := chunk.start_time.getD 0
  let endTime := chunk.end_time.getD startTime
  { chunk_id := chunk.id
    score := score
    text := chunk.text
    start_time := startTime
    end_time := endTime
    video_id := chunk.video_id
    video_title := chunk.video_title
    channel_id := chunk.channel_id
    channel_name := chunk.channel_name }

/-- Stable insertion into a list sorted by descending score (ties keep the
existing element first, matching a stable JS sort with comparator
`(a, b) => b.score - a.score`). -/
def insertByScore (r : FormattedResult) : List FormattedResult → List FormattedResult
  | [] => [r]
  | x :: xs => if r.score > x.score then r :: x :: xs else x :: insertByScore r xs

/-- Stable sort by descending score, modelling the JS stable
`Array.prototype.sort` with comparator `(a, b) => b.score - a.score`. -/
def sortByScoreDesc : List FormattedResult → List FormattedResult
  | [] => []
  | x :: xs => insertByScore x (sortByScoreDesc xs)

/-- Embedding of the ranking core of `searchTranscripts` (mcp-handler.ts):
join the chunk rows with the match scores, then sort by descending score. -/
def searchTranscriptsRank (vms : List VectorMatch) (chunks : List ChunkRow) :
    List FormattedResult :=
  sortByScoreDesc (chunks.map (buildResult vms))

/-! ## Model of well-formed SRT files

To state the parser round-trip for format B, a well-formed SRT file with N
cues is modelled as the rendering of N cue records: a digit sequence line,
a `HH:MM:SS,mmm --> HH:MM:SS,mmm` timestamp line and a text line, blocks
separated by blank lines. -/

/-- Two-digit zero-padded decimal rendering. -/
def pad2 (n : Nat) : Text := [Nat.digitChar (n / 10), Nat.digitChar (n % 10)]

/-- Three-digit zero-padded decimal rendering. -/
def pad3 (n : Nat) : Text :=
  [Nat.digitChar (n / 100), Nat.digitChar (n / 10 % 10), Nat.digitChar (n % 10)]

/-- Timestamp components of an SRT cue. -/
structure TsComp where
  h : Nat
  m : Nat
  s : Nat
  ms : Nat
deriving DecidableEq, Repr

/-- Rendering `HH:MM:SS,mmm` of timestamp components. -/
def renderTs (t : TsComp) : Text :=
  pad2 t.h ++ (':' :: (pad2 t.m ++ (':' :: (pad2 t.s ++ (',' :: pad3 t.ms)))))

/-- Value in seconds of timestamp components. -/
def tsVal (t : TsComp) : ℚ :=
  (t.h : ℚ) * 3600 + (t.m : ℚ) * 60 + ((t.s : ℚ) + (t.ms : ℚ) / 1000)

/-- In-range timestamp components (renderable in `HH:MM:SS,mmm`). -/
def validTs (t : TsComp) : Prop :=
  t.h ≤ 99 ∧ t.m ≤ 59 ∧ t.s ≤ 59 ∧ t.ms ≤ 999

instance (t : TsComp) : Decidable (validTs t) := by unfold validTs; infer_instance

/-- An SRT cue: sequence line, start and end timestamps, text. -/
structure SrtCue where
  idx : Text
  startT : TsComp
  endT : TsComp
  text : Text
deriving DecidableEq, Repr

/-- Rendering of one SRT block. -/
def renderCue (c : SrtCue) : Text :=
  c.idx ++ '\n' ::
    (renderTs c.startT ++ ' ' :: '-' :: '-' :: '>' :: ' ' ::
      (renderTs c.endT ++ '\n' :: c.text))

/-- Rendering of a whole SRT file: blocks separated by blank lines. -/
def renderSrt (cues : List SrtCue) : Text :=
  interc ['\n', '\n'] (cues.map renderCue)

/-- The segment a well-formed cue should parse to. -/
def cueSeg (c : SrtCue) : SegJ :=
  ⟨c.text, some (tsVal c.startT), some (tsVal c.endT)⟩

/-- A well-formed cue: non-empty digit sequence line; in-range timestamps
with the start strictly before the end; a single non-empty, trimmed text
line free of markup (so tag/brace stripping does not apply). -/
def WFCue (c : SrtCue) : Prop :=
  c.idx ≠ [] ∧ (∀ ch ∈ c.idx, ch.isDigit = true) ∧
  validTs c.startT ∧ validTs c.endT ∧ tsVal c.startT < tsVal c.endT ∧
  c.text ≠ [] ∧ trimJs c.text = c.text ∧
  '\n' ∉ c.text ∧ '<' ∉ c.text ∧ '\x7b' ∉ c.text

instance (c : SrtCue) : Decidable (WFCue c) := by unfold WFCue; infer_instance

/-- Cues are non-overlapping when each ends no later than the next starts. -/
def cueNonOverlap (c c' : SrtCue) : Prop := tsVal c.endT ≤ tsVal c'.startT

instance (c c' : SrtCue) : Decidable (cueNonOverlap c c') := by
  unfold cueNonOverlap; infer_instance

/-! ## Concrete example data used by the theorems -/

/-- Rolling-caption input on which running the deduplicator twice differs
from running it once. -/
def dedupCexSegs : List SegQ := [⟨"ab".data, 0, 1⟩, ⟨"abab".data, 1, 2⟩]

/-- The rolling-caption example of the spec: each cue repeats the previous
text and appends a word. -/
def dedupExampleSegs : List SegQ :=
  [⟨"hello".data, 0, 1⟩, ⟨"hello world".data, 1, 2⟩,
   ⟨"hello world today".data, 2, 3⟩]

/-- Deduplicator input whose only segment has untrimmed text. -/
def dedupUntrimmedSegs : List SegQ := [⟨[' ', 'a', ' '], 0, 1⟩]

/-- A well-formed VTT file with two non-overlapping plain-text cues. -/
def exampleVtt2Cues : Text :=
  ("WEBVTT\n\n00:00:01.000 --> 00:00:02.000\nHello there\n\n" ++
    "00:00:03.000 --> 00:00:04.000\nGeneral Kenobi").data

/-- A VTT file whose first cue has a malformed timestamp (four
colon-separated tokens). -/
def vttBadTsFile : Text :=
  "WEBVTT\n\n0:0:0:0 --> 00:00:02.000\nHi".data

/-- An SRT file whose cue has a malformed end timestamp. -/
def srtBadTsFile : Text :=
  "1\n00:00:01,000 --> :::::\nhello".data

/-- Candidate rows with cosine distances 0.1, 0.4, 0.05, in that order. -/
def rankerCexRows : List DbRow :=
  [⟨"ta".data, "v".data, "id1".data, "ch".data, 0, 1, 0.1⟩,
   ⟨"tb".data, "v".data, "id2".data, "ch".data, 1, 2, 0.4⟩,
   ⟨"tc".data, "v".data, "id3".data, "ch".data, 2, 3, 0.05⟩]

/-- Segments out of chronological order on which normalization emits a
segment with its start after its end. -/
def normalizeCexSegs : List SegQ := [⟨"a".data, 5, 5.2⟩, ⟨"b".data, 1, 2⟩]

/-- The merge example of the spec. -/
def mergeExampleSegs : List SegQ := [⟨"a".data, 0, 0.2⟩, ⟨"b".data, 0.3, 5⟩]

/-- Six one-word segments for the chunker example. -/
def chunkExampleSegs : List SegQ :=
  [⟨"w1".data, 0, 1⟩, ⟨"w2".data, 1, 2⟩, ⟨"w3".data, 2, 3⟩,
   ⟨"w4".data, 3, 4⟩, ⟨"w5".data, 4, 5⟩, ⟨"w6".data, 5, 6⟩]

/-- Stub tokenizer of the chunker example: every segment text is one word
counting two tokens. -/
def tokTwo : Text → Nat := fun _ => 2

/-- Stub tokenizer making every segment count 50 tokens. -/
def tokFifty : Text → Nat := fun _ => 50

/-- Two well-formed SRT cues used to instantiate the round-trip theorem. -/
def srtExampleCues : List SrtCue :=
  [⟨"1".data, ⟨0, 0, 1, 0⟩, ⟨0, 0, 2, 500⟩, "Hello there".data⟩,
   ⟨"2".data, ⟨0, 0, 3, 0⟩, ⟨0, 0, 4, 0⟩, "General Kenobi".data⟩]

/-- A text in normalized form: non-empty with no leading or trailing
whitespace (so that trimming it is the identity).  Used to state the
normalizer invariants. -/
def goodT (t : Text) : Prop :=
  t ≠ [] ∧ (∀ c ∈ t.head?, isSpaceJs c = false) ∧
    (∀ c ∈ t.getLast?, isSpaceJs c = false)

/-! ## Helper lemmas -/

theorem containsStr_of_isPrefixOf {l pat : Text} (h : pat.isPrefixOf l = true) :
    containsStr l pat = true := by
  unfold containsStr findSub
  simp [h]

theorem dedupLoop_text_ne_nil {τ : Type} (l : List (Seg τ)) (prev : Text) :
    ∀ out ∈ dedupLoop prev l, out.text ≠ [] := by
  induction l generalizing prev with
  | nil => simp [dedupLoop]
  | cons a rest ih =>
    intro out hout
    unfold dedupLoop at hout
    by_cases hemp : (dedupNewText prev a.text).isEmpty
    · rw [if_pos hemp] at hout
      exact ih a.text out hout
    · rw [if_neg hemp] at hout
      rcases List.mem_cons.mp hout with h | h
      · subst h
        simpa [List.isEmpty_iff] using hemp
      · exact ih a.text out h

theorem dedupNewText_of_not_contains {prev text : Text}
    (h : prev = [] ∨ containsStr text prev = false) :
    dedupNewText prev text = text := by
  unfold dedupNewText
  rcases h with h | h
  · subst h; simp
  · have hpre : prev.isPrefixOf text = false := by
      by_contra hc
      rw [Bool.not_eq_false] at hc
      rw [containsStr_of_isPrefixOf hc] at h
      exact Bool.noConfusion h
    simp [hpre, h]

theorem dedupLoop_id {τ : Type} (l : List (Seg τ)) (prev : Text)
    (hne : ∀ out ∈ l, out.text ≠ [])
    (hchain : List.Chain' (fun a b => containsStr b.text a.text = false) l)
    (hhead : ∀ a ∈ l.head?, prev = [] ∨ containsStr a.text prev = false) :
    dedupLoop prev l = l := by
  induction l generalizing prev with
  | nil => rfl
  | cons a rest ih =>
    have hnt : dedupNewText prev a.text = a.text :=
      dedupNewText_of_not_contains (hhead a rfl)
    have hane : a.text ≠ [] := hne a (List.mem_cons_self a rest)
    unfold dedupLoop
    rw [hnt, if_neg (by simpa [List.isEmpty_iff] using hane)]
    have htail : dedupLoop a.text rest = rest := by
      refine ih a.text (fun o ho => hne o (List.mem_cons_of_mem _ ho))
        hchain.tail ?_
      intro b hb
      rcases rest with _ | ⟨b', rest'⟩
      · simp at hb
      · simp only [List.head?_cons, Option.mem_def, Option.some.injEq] at hb
        subst hb
        exact Or.inr (List.chain'_cons.mp hchain).1
    rw [htail]

/-- C1 counterexample: on the input with texts `"ab"`, `"abab"` the
deduplicator outputs texts `"ab"`, `"ab"`, and a second run collapses that
to a single segment, so re-running the deduplicator on its own output is
not a no-op. -/
theorem dedup_not_idempotent_cex :
    deduplicateVttSegments (deduplicateVttSegments dedupCexSegs) ≠
      deduplicateVttSegments dedupCexSegs := by decide

/-- C1 (amended): re-running the deduplicator on its own output is a no-op
provided no output segment's text contains the text of the segment emitted
just before it (in particular whenever consecutive output texts do not
repeat each other, which is the purpose of deduplication). -/
theorem dedup_idempotent_of_no_rolling (segs : List SegQ)
    (h : List.Chain' (fun a b => containsStr b.text a.text = false)
      (deduplicateVttSegments segs)) :
    deduplicateVttSegments (deduplicateVttSegments segs) =
      deduplicateVttSegments segs :=
  dedupLoop_id (dedupLoop [] segs) []
    (dedupLoop_text_ne_nil segs []) h (fun _ _ => Or.inl rfl)

/-- Witness for the amended C1 on the spec's rolling-caption example. -/
theorem dedup_idempotent_of_no_rolling_witness :
    List.Chain' (fun a b => containsStr b.text a.text = false)
      (deduplicateVttSegments dedupExampleSegs) ∧
    deduplicateVttSegments (deduplicateVttSegments dedupExampleSegs) =
      deduplicateVttSegments dedupExampleSegs ∧
    (deduplicateVttSegments dedupExampleSegs).map (·.text) =
      ["hello".data, "world".data, "today".data] := by
  have hval : deduplicateVttSegments dedupExampleSegs =
      [⟨"hello".data, 0, 1⟩, ⟨"world".data, 1, 2⟩, ⟨"today".data, 2, 3⟩] := by
    decide
  have hchain : List.Chain' (fun a b => containsStr b.text a.text = false)
      (deduplicateVttSegments dedupExampleSegs) := by
    rw [hval]
    simp only [List.chain'_cons, List.chain'_singleton, and_true]
    exact ⟨by decide, by decide⟩
  exact ⟨hchain, dedup_idempotent_of_no_rolling dedupExampleSegs hchain, by decide⟩

/-- C10 (amended): every segment emitted by the deduplicator carries the
start and end times of some input segment unchanged, and its text is either
that input segment's original text verbatim (when the previous text did not
occur in it) or a trimmed suffix of it. -/
theorem dedup_suffix_or_original {τ : Type} (segs : List (Seg τ)) :
    ∀ out ∈ deduplicateVttSegments segs, ∃ s ∈ segs,
      out.start_time = s.start_time ∧ out.end_time = s.end_time ∧
      (out.text = s.text ∨ ∃ k, out.text = trimJs (s.text.drop k)) := by
  suffices h : ∀ (l : List (Seg τ)) (prev : Text), ∀ out ∈ dedupLoop prev l,
      ∃ s ∈ l, out.start_time = s.start_time ∧ out.end_time = s.end_time ∧
        (out.text = s.text ∨ ∃ k, out.text = trimJs (s.text.drop k)) by
    exact h segs []
  intro l
  induction l with
  | nil => simp [dedupLoop]
  | cons a rest ih =>
    intro prev out hout
    unfold dedupLoop at hout
    have hstep : out = (⟨dedupNewText prev a.text, a.start_time, a.end_time⟩ : Seg τ) ∨
        out ∈ dedupLoop a.text rest := by
      by_cases hemp : (dedupNewText prev a.text).isEmpty
      · rw [if_pos hemp] at hout
        exact Or.inr hout
      · rw [if_neg hemp] at hout
        exact List.mem_cons.mp hout
    rcases hstep with h | h
    · subst h
      refine ⟨a, List.mem_cons_self a rest, rfl, rfl, ?_⟩
      unfold dedupNewText
      split_ifs with h1 h2
      · exact Or.inr ⟨prev.length, rfl⟩
      · exact Or.inr ⟨(findSub a.text prev).getD 0 + prev.length, rfl⟩
      · exact Or.inl rfl
    · obtain ⟨s, hs, hp⟩ := ih a.text out h
      exact ⟨s, List.mem_cons_of_mem _ hs, hp⟩

/-- Witness for the amended C10: the `"world"` segment of the rolling
example is a trimmed suffix of `"hello world"` with that cue's times. -/
theorem dedup_suffix_or_original_witness :
    (⟨"world".data, 1, 2⟩ : SegQ) ∈ deduplicateVttSegments dedupExampleSegs ∧
    ∃ s ∈ dedupExampleSegs,
      (⟨"world".data, 1, 2⟩ : SegQ).start_time = s.start_time ∧
      (⟨"world".data, 1, 2⟩ : SegQ).end_time = s.end_time ∧
      ((⟨"world".data, 1, 2⟩ : SegQ).text = s.text ∨
        ∃ k, (⟨"world".data, 1, 2⟩ : SegQ).text = trimJs (s.text.drop k)) :=
  ⟨by decide, dedup_suffix_or_original dedupExampleSegs ⟨"world".data, 1, 2⟩ (by decide)⟩

/-- C10 counterexample: when the previous text does not occur in the
current text the deduplicator emits the original text verbatim, so a
segment whose original text has surrounding whitespace is not equal to any
trimmed suffix of the input text. -/
theorem dedup_trimmed_suffix_cex :
    ∃ out ∈ deduplicateVttSegments dedupUntrimmedSegs,
      ∀ s ∈ dedupUntrimmedSegs, ∀ k : Nat, out.text ≠ trimJs (s.text.drop k) := by
  refine ⟨⟨[' ', 'a', ' '], 0, 1⟩, by decide, ?_⟩
  intro s hs k
  have hs' : s = (⟨[' ', 'a', ' '], 0, 1⟩ : SegQ) := by
    simpa [dedupUntrimmedSegs] using hs
  subst hs'
  rcases lt_or_ge k 3 with hk | hk
  · interval_cases k <;> decide
  · rw [show (⟨[' ', 'a', ' '], 0, 1⟩ : SegQ).text.drop k = [] from
      List.drop_eq_nil_of_le (by simpa using hk)]
    decide

theorem mergeLoop_ne_nil (minD thresh : ℚ) (rest : List SegQ) (cur : SegQ) :
    mergeLoop minD thresh cur rest ≠ [] := by
  induction rest generalizing cur with
  | nil => simp [mergeLoop]
  | cons n rest ih =>
    unfold mergeLoop
    split
    · exact ih _
    · simp

/-- C8: the short-segment forward merge follows the claimed rule: a current
segment shorter than `minDuration` whose gap to the next segment is at most
`mergeThreshold` is merged into it (texts joined by a single space, end
time extended to the absorbed segment's end, so that merging cascades on
the combined segment); otherwise the current segment is emitted.  The final
accumulated segment is always emitted (non-empty output for non-empty
input), and the spec example `[{0,0.2,"a"}, {0.3,5,"b"}]` with
`minDuration = 0.5`, `mergeThreshold = 1.0` merges to `{0,5,"a b"}`. -/
theorem mergeShortSegments_forward_rule :
    (∀ (minD thresh : ℚ) (s1 s2 : SegQ) (rest : List SegQ),
      mergeShortSegments (s1 :: s2 :: rest) minD thresh =
        if s1.end_time - s1.start_time < minD ∧ s2.start_time - s1.end_time ≤ thresh
        then mergeShortSegments (absorbSeg s1 s2 :: rest) minD thresh
        else s1 :: mergeShortSegments (s2 :: rest) minD thresh) ∧
    (∀ (minD thresh : ℚ) (s : SegQ) (rest : List SegQ),
      mergeShortSegments (s :: rest) minD thresh ≠ []) ∧
    mergeShortSegments mergeExampleSegs 0.5 1.0 = [⟨"a b".data, 0, 5⟩] := by
  refine ⟨?_, ?_, ?_⟩
  · intro minD thresh s1 s2 rest
    simp only [mergeShortSegments, mergeLoop, Bool.and_eq_true, decide_eq_true_eq]
  · intro minD thresh s rest
    exact mergeLoop_ne_nil minD thresh rest s
  · simp only [mergeShortSegments, mergeExampleSegs, mergeLoop, absorbSeg]
    norm_num

theorem chunkLoop_seq_map (tok : Text → Nat) (title : Text) (target budget : Nat) :
    ∀ (rest cur : List SegQ) (curTok seq : Nat),
      (chunkLoop tok title target budget rest cur curTok seq).map (fun t => t.chunk.seq) =
        List.range' seq (chunkLoop tok title target budget rest cur curTok seq).length := by
  intro rest
  induction rest with
  | nil =>
    intro cur curTok seq
    unfold chunkLoop
    split
    · rfl
    · rfl
  | cons seg rest ih =>
    intro cur curTok seq
    unfold chunkLoop
    dsimp only
    split
    · simp only [List.map_cons, List.length_cons, List.range'_succ, mkChunk, ih]
    · split
      · simp only [List.map_cons, List.length_cons, List.range'_succ, mkChunk, ih]
      · exact ih _ _ _

/-- C6: an oversized segment (token count above the target) reached while
the chunk under construction is empty is emitted alone as its own chunk,
with the title-prefixed text of that single segment (never split), and the
`seq` fields of the chunks of any chunking run are exactly `0, 1, 2, …` in
emission order. -/
theorem chunk_oversized_alone_and_seq_contiguous :
    (∀ (tok : Text → Nat) (title : Text) (target budget : Nat) (seg : SegQ)
      (rest : List SegQ) (curTok seq : Nat), tok seg.text > target →
      chunkLoop tok title target budget (seg :: rest) [] curTok seq =
        ⟨mkChunk title [seg] seq, [seg], true⟩ ::
          chunkLoop tok title target budget rest [] 0 (seq + 1)) ∧
    (∀ (tok : Text → Nat) (segs : List SegQ) (title : Text) (target : Nat) (pct : ℚ),
      (chunkTranscript tok segs title target pct).map (·.seq) =
        List.range (chunkTranscript tok segs title target pct).length) := by
  constructor
  · intro tok title target budget seg rest curTok seq h
    conv_lhs => rw [chunkLoop.eq_def]
    dsimp only
    rw [if_pos (by simp [h])]
  · intro tok segs title target pct
    unfold chunkTranscript chunkGroups
    rw [List.map_map, List.length_map, List.range_eq_range']
    exact chunkLoop_seq_map tok title target _ segs [] 0 0

/-- Witness for C6: a 50-token segment with target 10 is emitted alone. -/
theorem chunk_oversized_alone_and_seq_contiguous_witness :
    tokFifty "big".data > 10 ∧
    chunkLoop tokFifty "T".data 10 1 [⟨"big".data, 0, 9⟩] [] 0 0 =
      ⟨mkChunk "T".data [⟨"big".data, 0, 9⟩] 0, [⟨"big".data, 0, 9⟩], true⟩ ::
        chunkLoop tokFifty "T".data 10 1 [] [] 0 1 :=
  ⟨by decide,
    chunk_oversized_alone_and_seq_contiguous.1 tokFifty "T".data 10 1
      ⟨"big".data, 0, 9⟩ [] 0 0 (by decide)⟩

theorem joinSpace_infix : ∀ (g : List Text) (t : Text), t ∈ g → t <:+: joinSpace g := by
  intro g
  induction g with
  | nil => simp
  | cons x g ih =>
    intro t ht
    rcases g with _ | ⟨y, g'⟩
    · simp only [List.mem_singleton] at ht
      subst ht
      exact List.infix_rfl
    · rcases List.mem_cons.mp ht with h | h
      · subst h
        exact (List.prefix_append t (' ' :: joinSpace (y :: g'))).isInfix
      · have h1 : t <:+: joinSpace (y :: g') := ih t h
        have h2 : joinSpace (y :: g') <:+ x ++ ' ' :: joinSpace (y :: g') := by
          have := List.suffix_append (x ++ [' ']) (joinSpace (y :: g'))
          simpa using this
        exact h1.trans h2.isInfix

theorem chunkLoop_chunk_shape (tok : Text → Nat) (title : Text) (target budget : Nat) :
    ∀ (rest cur : List SegQ) (curTok seq : Nat),
      ∀ t ∈ chunkLoop tok title target budget rest cur curTok seq,
        t.chunk = mkChunk title t.segs t.chunk.seq := by
  intro rest
  induction rest with
  | nil =>
    intro cur curTok seq t ht
    unfold chunkLoop at ht
    split at ht
    · simp at ht
    · simp only [List.mem_singleton] at ht
      subst ht
      rfl
  | cons seg rest ih =>
    intro cur curTok seq t ht
    unfold chunkLoop at ht
    dsimp only at ht
    split at ht
    · rcases List.mem_cons.mp ht with h | h
      · subst h; rfl
      · exact ih _ _ _ t h
    · split at ht
      · rcases List.mem_cons.mp ht with h | h
        · subst h; rfl
        · exact ih _ _ _ t h
      · exact ih _ _ _ t ht

theorem chunkLoop_covers (tok : Text → Nat) (title : Text) (target budget : Nat) :
    ∀ (rest cur : List SegQ) (curTok seq : Nat) (s : SegQ),
      s ∈ rest ∨ s ∈ cur →
      ∃ t ∈ chunkLoop tok title target budget rest cur curTok seq, s ∈ t.segs := by
  intro rest
  induction rest with
  | nil =>
    intro cur curTok seq s hs
    rcases hs with hs | hs
    · simp at hs
    · have hcur : cur ≠ [] := List.ne_nil_of_mem hs
      unfold chunkLoop
      rw [if_neg (by simpa [List.isEmpty_iff] using hcur)]
      exact ⟨_, List.mem_singleton_self _, hs⟩
  | cons seg rest ih =>
    intro cur curTok seq s hs
    unfold chunkLoop
    dsimp only
    split
    · next hcond =>
      have hcur : cur = [] := by
        simpa [List.isEmpty_iff] using (Bool.and_elim_right hcond)
      rcases hs with hs | hs
      · rcases List.mem_cons.mp hs with h | h
        · subst h
          exact ⟨_, List.mem_cons_self _ _, List.mem_singleton_self s⟩
        · obtain ⟨t, ht, hst⟩ := ih [] 0 (seq + 1) s (Or.inl h)
          exact ⟨t, List.mem_cons_of_mem _ ht, hst⟩
      · rw [hcur] at hs
        simp at hs
    · split
      · rcases hs with hs | hs
        · rcases List.mem_cons.mp hs with h | h
          · subst h
            obtain ⟨t, ht, hst⟩ := ih _ _ (seq + 1) s
              (Or.inr (List.mem_append_right _ (List.mem_singleton_self s)))
            exact ⟨t, List.mem_cons_of_mem _ ht, hst⟩
          · obtain ⟨t, ht, hst⟩ := ih _ _ (seq + 1) s (Or.inl h)
            exact ⟨t, List.mem_cons_of_mem _ ht, hst⟩
        · exact ⟨_, List.mem_cons_self _ _, hs⟩
      · rcases hs with hs | hs
        · rcases List.mem_cons.mp hs with h | h
          · subst h
            exact ih _ _ seq s (Or.inr (List.mem_append_right _ (List.mem_singleton_self s)))
          · exact ih _ _ seq s (Or.inl h)
        · exact ih _ _ seq s (Or.inr (List.mem_append_left _ hs))

/-- C9: the chunker loses no transcript text: every input segment is placed
in the segment group of at least one emitted chunk, and its text occurs
(as a contiguous substring) inside that chunk's text. -/
theorem chunkTranscript_no_text_loss
    (tok : Text → Nat) (segs : List SegQ) (title : Text) (target : Nat) (pct : ℚ) :
    ∀ s ∈ segs, ∃ t ∈ chunkGroups tok segs title target pct,
      s ∈ t.segs ∧ t.chunk ∈ chunkTranscript tok segs title target pct ∧
      s.text <:+: t.chunk.text := by
  intro s hs
  obtain ⟨t, ht, hst⟩ :=
    chunkLoop_covers tok title target _ segs [] 0 0 s (Or.inl hs)
  refine ⟨t, ht, hst, List.mem_map_of_mem _ ht, ?_⟩
  have hshape := chunkLoop_chunk_shape tok title target _ segs [] 0 0 t ht
  rw [hshape]
  show s.text <:+: title ++ ' ' :: '|' :: ' ' :: joinSpace (t.segs.map (·.text))
  have h1 : s.text <:+: joinSpace (t.segs.map (·.text)) :=
    joinSpace_infix _ s.text (List.mem_map_of_mem _ hst)
  have h2 : joinSpace (t.segs.map (·.text)) <:+
      title ++ ' ' :: '|' :: ' ' :: joinSpace (t.segs.map (·.text)) := by
    have := List.suffix_append (title ++ [' ', '|', ' ']) (joinSpace (t.segs.map (·.text)))
    simpa using this
  exact h1.trans h2.isInfix

/-- Witness for C9 on the chunker example input. -/
theorem chunkTranscript_no_text_loss_witness :
    (⟨"w1".data, 0, 1⟩ : SegQ) ∈ chunkExampleSegs ∧
    ∃ t ∈ chunkGroups tokTwo chunkExampleSegs "T".data 10 0.2,
      (⟨"w1".data, 0, 1⟩ : SegQ) ∈ t.segs ∧
      t.chunk ∈ chunkTranscript tokTwo chunkExampleSegs "T".data 10 0.2 ∧
      ("w1".data : Text) <:+: t.chunk.text :=
  ⟨by decide,
    chunkTranscript_no_text_loss tokTwo chunkExampleSegs "T".data 10 0.2
      ⟨"w1".data, 0, 1⟩ (by decide)⟩

theorem walkAux_suffix (tok : Text → Nat) (budget : Nat) :
    ∀ (rs acc : List SegQ) (t : Nat),
      (walkAux tok budget rs acc t).1 <:+ rs.reverse ++ acc := by
  intro rs
  induction rs with
  | nil => intro acc t; simp [walkAux]
  | cons s rs ih =>
    intro acc t
    unfold walkAux
    dsimp only
    split
    · have := ih (s :: acc) (t + tok s.text)
      simpa using this
    · split
      · have h1 : s :: acc <:+ rs.reverse ++ s :: acc := List.suffix_append _ _
        simp only [List.reverse_cons, List.append_assoc, List.singleton_append]
        exact h1
      · have h1 : acc <:+ (rs.reverse ++ [s]) ++ acc := List.suffix_append _ _
        simpa [List.append_assoc] using h1

theorem walkAux_ne_nil (tok : Text → Nat) (budget : Nat) :
    ∀ (rs acc : List SegQ) (t : Nat), rs ≠ [] ∨ acc ≠ [] →
      (walkAux tok budget rs acc t).1 ≠ [] := by
  intro rs
  induction rs with
  | nil =>
    intro acc t h
    rcases h with h | h
    · exact absurd rfl h
    · simpa [walkAux] using h
  | cons s rs ih =>
    intro acc t _
    unfold walkAux
    dsimp only
    split
    · exact ih (s :: acc) _ (Or.inr (by simp))
    · split
      · simp
      · next hemp =>
        simpa [List.isEmpty_iff] using hemp

theorem walkAux_sum (tok : Text → Nat) (budget : Nat) :
    ∀ (rs acc : List SegQ) (t : Nat), t = (acc.map (fun s => tok s.text)).sum →
      (walkAux tok budget rs acc t).2 =
        (((walkAux tok budget rs acc t).1).map (fun s => tok s.text)).sum := by
  intro rs
  induction rs with
  | nil => intro acc t h; simpa [walkAux] using h
  | cons s rs ih =>
    intro acc t h
    unfold walkAux
    dsimp only
    split
    · exact ih (s :: acc) _ (by simp [h]; ring)
    · split
      · next hemp =>
        have hacc : acc = [] := by simpa [List.isEmpty_iff] using hemp
        subst hacc
        simp at h
        simp [h]
      · exact h

theorem overlapWalk_props (tok : Text → Nat) (budget : Nat) (segs : List SegQ)
    (h : segs ≠ []) :
    (overlapWalk tok budget segs).1 ≠ [] ∧
    (overlapWalk tok budget segs).1 <:+ segs ∧
    (overlapWalk tok budget segs).2 =
      (((overlapWalk tok budget segs).1).map (fun s => tok s.text)).sum := by
  refine ⟨?_, ?_, ?_⟩
  · exact walkAux_ne_nil tok budget segs.reverse [] 0
      (Or.inl (by simpa using h))
  · have := walkAux_suffix tok budget segs.reverse [] 0
    simpa [overlapWalk] using this
  · exact walkAux_sum tok budget segs.reverse [] 0 (by simp)

theorem chunkLoop_head_prefix (tok : Text → Nat) (title : Text) (target budget : Nat) :
    ∀ (rest cur : List SegQ) (curTok seq : Nat), cur ≠ [] →
      ∀ g ∈ (chunkLoop tok title target budget rest cur curTok seq).head?,
        cur <+: g.segs := by
  intro rest
  induction rest with
  | nil =>
    intro cur curTok seq hcur g hg
    unfold chunkLoop at hg
    rw [if_neg (by simpa [List.isEmpty_iff] using hcur)] at hg
    simp only [List.head?_cons, Option.mem_def, Option.some.injEq] at hg
    subst hg
    exact List.prefix_rfl
  | cons seg rest ih =>
    intro cur curTok seq hcur g hg
    unfold chunkLoop at hg
    dsimp only at hg
    split at hg
    · next hcond =>
      exact absurd (by simpa [List.isEmpty_iff] using Bool.and_elim_right hcond) hcur
    · split at hg
      · simp only [List.head?_cons, Option.mem_def, Option.some.injEq] at hg
        subst hg
        exact List.prefix_rfl
      · have := ih (cur ++ [seg]) (curTok + tok seg.text) seq (by simp) g hg
        exact (List.prefix_append cur [seg]).trans this

/-- C5: whenever a chunk is closed by the packing rule (not the
oversized-segment rule) and another chunk follows, the carry-over computed
by the backward overlap walk is a non-empty suffix of the just-closed
chunk's segments, appears as a prefix of the next chunk's segment group,
and its accumulated token count is exactly the sum of the carried segments'
token counts (the amount that seeds the next chunk's running total).  On
the spec example (six one-word segments, two tokens each, target 10,
overlap fraction 0.2) the groups are `w1…w5` and `w5 w6`: the trailing
segment of the first chunk reappears at the head of the second. -/
theorem chunk_overlap_carry :
    (∀ (tok : Text → Nat) (segs : List SegQ) (title : Text) (target : Nat) (pct : ℚ),
      List.Chain' (fun g g' => g.oversized = false →
        (overlapWalk tok (((target : ℚ) * pct).floor.toNat) g.segs).1 ≠ [] ∧
        (overlapWalk tok (((target : ℚ) * pct).floor.toNat) g.segs).1 <:+ g.segs ∧
        (overlapWalk tok (((target : ℚ) * pct).floor.toNat) g.segs).1 <+: g'.segs ∧
        (overlapWalk tok (((target : ℚ) * pct).floor.toNat) g.segs).2 =
          (((overlapWalk tok (((target : ℚ) * pct).floor.toNat) g.segs).1).map
            (fun s => tok s.text)).sum)
        (chunkGroups tok segs title target pct)) ∧
    (chunkGroups tokTwo chunkExampleSegs "T".data 10 0.2).map (·.segs) =
      [[⟨"w1".data, 0, 1⟩, ⟨"w2".data, 1, 2⟩, ⟨"w3".data, 2, 3⟩,
        ⟨"w4".data, 3, 4⟩, ⟨"w5".data, 4, 5⟩],
       [⟨"w5".data, 4, 5⟩, ⟨"w6".data, 5, 6⟩]] := by
  constructor
  · intro tok segs title target pct
    set budget := (((target : ℚ) * pct).floor).toNat with hb
    suffices h : ∀ (rest cur : List SegQ) (curTok seq : Nat),
        List.Chain' (fun g g' => g.oversized = false →
          (overlapWalk tok budget g.segs).1 ≠ [] ∧
          (overlapWalk tok budget g.segs).1 <:+ g.segs ∧
          (overlapWalk tok budget g.segs).1 <+: g'.segs ∧
          (overlapWalk tok budget g.segs).2 =
            (((overlapWalk tok budget g.segs).1).map (fun s => tok s.text)).sum)
          (chunkLoop tok title target budget rest cur curTok seq) by
      exact h segs [] 0 0
    intro rest
    induction rest with
    | nil =>
      intro cur curTok seq
      unfold chunkLoop
      split
      · exact List.chain'_nil
      · exact List.chain'_singleton _
    | cons seg rest ih =>
      intro cur curTok seq
      unfold chunkLoop
      dsimp only
      split
      · refine List.chain'_cons'.mpr ⟨?_, ih [] 0 (seq + 1)⟩
        intro y _ habs
        exact absurd habs (by simp)
      · split
        · next hcond =>
          have hcur : cur ≠ [] := by
            have := Bool.and_elim_right hcond
            simpa [List.isEmpty_iff] using this
          refine List.chain'_cons'.mpr ⟨?_, ih _ _ (seq + 1)⟩
          intro y hy _
          obtain ⟨hne, hsuf, hsum⟩ := overlapWalk_props tok budget cur hcur
          refine ⟨hne, hsuf, ?_, hsum⟩
          have hpre := chunkLoop_head_prefix tok title target budget rest
            ((overlapWalk tok budget cur).1 ++ [seg]) _ (seq + 1)
            (by simp) y hy
          exact (List.prefix_append _ [seg]).trans hpre
        · exact ih _ _ seq
  · have hgr : chunkGroups tokTwo chunkExampleSegs "T".data 10 0.2 =
        chunkLoop tokTwo "T".data 10 2 chunkExampleSegs [] 0 0 := by
      unfold chunkGroups
      norm_num
      congr 1
    rw [hgr]
    decide

theorem insertByScore_perm (r : FormattedResult) :
    ∀ l : List FormattedResult, (insertByScore r l).Perm (r :: l) := by
  intro l
  induction l with
  | nil => simp [insertByScore]
  | cons x xs ih =>
    unfold insertByScore
    split
    · exact List.Perm.refl _
    · exact (ih.cons x).trans (List.Perm.swap r x xs)

theorem sortByScoreDesc_perm :
    ∀ l : List FormattedResult, (sortByScoreDesc l).Perm l := by
  intro l
  induction l with
  | nil => simp [sortByScoreDesc]
  | cons x xs ih =>
    exact (insertByScore_perm x (sortByScoreDesc xs)).trans (ih.cons x)

theorem insertByScore_sorted (r : FormattedResult) :
    ∀ l : List FormattedResult,
      List.Sorted (fun a b => b.score ≤ a.score) l →
      List.Sorted (fun a b => b.score ≤ a.score) (insertByScore r l) := by
  intro l
  induction l with
  | nil => intro _; simp [insertByScore]
  | cons x xs ih =>
    intro hs
    rw [List.sorted_cons] at hs
    unfold insertByScore
    split
    · next hgt =>
      rw [List.sorted_cons]
      refine ⟨?_, List.sorted_cons.mpr hs⟩
      intro b hb
      rcases List.mem_cons.mp hb with h | h
      · subst h; exact le_of_lt hgt
      · exact le_trans (hs.1 b h) (le_of_lt hgt)
    · next hle =>
      rw [List.sorted_cons]
      refine ⟨?_, ih hs.2⟩
      intro b hb
      rcases List.mem_cons.mp ((insertByScore_perm r xs).mem_iff.mp hb) with h | h
      · subst h
        exact le_of_not_gt hle
      · exact hs.1 b h

theorem sortByScoreDesc_sorted :
    ∀ l : List FormattedResult,
      List.Sorted (fun a b => b.score ≤ a.score) (sortByScoreDesc l) := by
  intro l
  induction l with
  | nil => simp [sortByScoreDesc]
  | cons x xs ih => exact insertByScore_sorted x _ ih

/-- C3 counterexample: the distance-path ranker (`search`) preserves the
candidate order instead of sorting; for candidate distances
`[0.1, 0.4, 0.05]` the output scores are `[0.9, 0.6, 0.95]` in that same
order, which is not sorted descending (and not the claimed order
`[0.95, 0.9, 0.6]`). -/
theorem search_not_sorted_cex :
    (search rankerCexRows).map (·.score) = [0.9, 0.6, 0.95] ∧
    ¬ List.Sorted (fun a b => b.score ≤ a.score) (search rankerCexRows) := by
  have hmap : (search rankerCexRows).map (·.score) = [0.9, 0.6, 0.95] := by
    simp [search, rankerCexRows]
    norm_num
  refine ⟨hmap, fun h => ?_⟩
  have h2 : List.Pairwise (fun a b : ℚ => b ≤ a) ((search rankerCexRows).map (·.score)) :=
    List.Pairwise.map _ (fun _ _ hab => hab) h
  rw [hmap] at h2
  rcases h2 with _ | ⟨h3, _⟩
  have := h3 0.95 (by norm_num)
  norm_num at this

/-- C3 (amended): when the collaborator reports cosine distances, `search`
derives each score as `1 - distance` in candidate order; its output is
sorted descending exactly when the collaborator hands the candidates over
sorted ascending by distance (which the database query does, via its
`ORDER BY distance`) — the ranker itself does not re-sort.  When the
collaborator reports similarity scores directly (`searchTranscripts`),
scores pass through unchanged (a permutation of the joined rows) and that
path explicitly sorts descending.  Distances `[0.1, 0.4, 0.05]` yield
scores `[0.9, 0.6, 0.95]` in candidate order. -/
theorem ranker_score_derivation :
    (∀ rows : List DbRow,
      (search rows).map (·.score) = rows.map (fun r => 1 - r.distance)) ∧
    (∀ rows : List DbRow,
      List.Chain' (fun r r' => r.distance ≤ r'.distance) rows →
      List.Chain' (fun a b => b.score ≤ a.score) (search rows)) ∧
    ((search rankerCexRows).map (·.score) = [0.9, 0.6, 0.95]) ∧
    (∀ (vms : List VectorMatch) (chunks : List ChunkRow),
      List.Sorted (fun a b => b.score ≤ a.score) (searchTranscriptsRank vms chunks) ∧
      (searchTranscriptsRank vms chunks).Perm (chunks.map (buildResult vms))) := by
  refine ⟨?_, ?_, ?_, ?_⟩
  · intro rows
    simp only [search, List.map_map]
    rfl
  · intro rows h
    rw [search, List.chain'_map]
    refine h.imp ?_
    intro a b hab
    show (1 : ℚ) - b.distance ≤ 1 - a.distance
    linarith
  · simp [search, rankerCexRows]
    norm_num
  · intro vms chunks
    exact ⟨sortByScoreDesc_sorted _, sortByScoreDesc_perm _⟩

/-- Witness for the amended C3: on the example candidate rows (which are
not distance-sorted) the score derivation holds, and on the
distance-sorted permutation of those rows the output is sorted
descending. -/
theorem ranker_score_derivation_witness :
    ((search rankerCexRows).map (·.score) =
      rankerCexRows.map (fun r => 1 - r.distance)) ∧
    List.Chain' (fun r r' => r.distance ≤ r'.distance)
      [(⟨"tc".data, "v".data, "id3".data, "ch".data, 2, 3, 0.05⟩ : DbRow),
       ⟨"ta".data, "v".data, "id1".data, "ch".data, 0, 1, 0.1⟩,
       ⟨"tb".data, "v".data, "id2".data, "ch".data, 1, 2, 0.4⟩] ∧
    List.Chain' (fun a b => b.score ≤ a.score)
      (search [(⟨"tc".data, "v".data, "id3".data, "ch".data, 2, 3, 0.05⟩ : DbRow),
       ⟨"ta".data, "v".data, "id1".data, "ch".data, 0, 1, 0.1⟩,
       ⟨"tb".data, "v".data, "id2".data, "ch".data, 1, 2, 0.4⟩]) := by
  have hchain : List.Chain' (fun r r' : DbRow => r.distance ≤ r'.distance)
      [(⟨"tc".data, "v".data, "id3".data, "ch".data, 2, 3, 0.05⟩ : DbRow),
       ⟨"ta".data, "v".data, "id1".data, "ch".data, 0, 1, 0.1⟩,
       ⟨"tb".data, "v".data, "id2".data, "ch".data, 1, 2, 0.4⟩] := by
    simp only [List.chain'_cons, List.chain'_singleton, and_true]
    norm_num
  exact ⟨ranker_score_derivation.1 rankerCexRows, hchain,
    ranker_score_derivation.2.1 _ hchain⟩

theorem head?_append_of_ne_nil {l₁ l₂ : Text} (h : l₁ ≠ []) :
    (l₁ ++ l₂).head? = l₁.head? := by
  rcases l₁ with _ | ⟨a, t⟩
  · exact absurd rfl h
  · rfl

theorem getLast?_of_suffix {v u : Text} (h : v <:+ u) (hv : v ≠ []) :
    u.getLast? = v.getLast? := by
  obtain ⟨t, rfl⟩ := h
  rw [← List.head?_reverse, ← List.head?_reverse, List.reverse_append,
    head?_append_of_ne_nil (by simpa using hv)]

theorem dropWhile_head_not (p : Char → Bool) :
    ∀ (l : Text), ∀ c ∈ (l.dropWhile p).head?, p c = false := by
  intro l
  induction l with
  | nil => simp
  | cons a t ih =>
    intro c hc
    rw [List.dropWhile_cons] at hc
    by_cases hp : p a
    · rw [if_pos hp] at hc
      exact ih c hc
    · rw [if_neg hp] at hc
      simp only [List.head?_cons, Option.mem_def, Option.some.injEq] at hc
      subst hc
      exact Bool.not_eq_true _ ▸ hp

theorem trimJs_good {l : Text} (h : trimJs l ≠ []) : goodT (trimJs l) := by
  refine ⟨h, ?_, ?_⟩
  · -- the head of the trimmed text is the last of the inner dropWhile,
    -- which is a suffix of the reverse of the first dropWhile
    intro c hc
    unfold trimJs at hc h
    set v := ((l.dropWhile isSpaceJs).reverse.dropWhile isSpaceJs) with hv
    have hvne : v ≠ [] := by
      intro habs
      rw [habs] at h
      exact h rfl
    have hsuf : v <:+ (l.dropWhile isSpaceJs).reverse := List.dropWhile_suffix _
    have hlast : ((l.dropWhile isSpaceJs).reverse).getLast? = v.getLast? :=
      getLast?_of_suffix hsuf hvne
    rw [List.head?_reverse] at hc
    rw [← hlast] at hc
    rw [List.getLast?_reverse] at hc
    exact dropWhile_head_not isSpaceJs l c hc
  · intro c hc
    unfold trimJs at hc h
    rw [List.getLast?_reverse] at hc
    exact dropWhile_head_not isSpaceJs _ c hc

theorem trimJs_of_good {t : Text} (h : goodT t) : trimJs t = t := by
  obtain ⟨hne, hhead, hlast⟩ := h
  unfold trimJs
  have h1 : t.dropWhile isSpaceJs = t := by
    rcases t with _ | ⟨a, t'⟩
    · rfl
    · rw [List.dropWhile_cons, if_neg]
      simp only [List.head?_cons, Option.mem_def, Option.some.injEq, forall_eq] at hhead
      simp [hhead]
  rw [h1]
  have h2 : t.reverse.dropWhile isSpaceJs = t.reverse := by
    rcases hr : t.reverse with _ | ⟨a, t'⟩
    · rfl
    · rw [List.dropWhile_cons, if_neg]
      have : t.getLast? = some a := by
        rw [← List.head?_reverse, hr, List.head?_cons]
      simp only [Option.mem_def] at hlast
      simp [hlast a this]
  rw [h2, List.reverse_reverse]

theorem goodT_join {a b : Text} (ha : goodT a) (hb : goodT b) :
    goodT (a ++ ' ' :: b) := by
  refine ⟨by simp, ?_, ?_⟩
  · intro c hc
    rw [head?_append_of_ne_nil ha.1] at hc
    exact ha.2.1 c hc
  · intro c hc
    have : (a ++ ' ' :: b).getLast? = b.getLast? := by
      have hsuf : b <:+ a ++ ' ' :: b := ⟨a ++ [' '], by simp⟩
      exact getLast?_of_suffix hsuf hb.1
    rw [this] at hc
    exact hb.2.2 c hc

theorem normalizeClean_good (segs : List SegQ) :
    ∀ seg ∈ normalizeClean segs,
      seg.start_time < seg.end_time ∧ goodT seg.text := by
  induction segs with
  | nil => simp [normalizeClean]
  | cons a rest ih =>
    intro seg hseg
    unfold normalizeClean at hseg
    dsimp only at hseg
    by_cases hemp : (trimJs (collapseWs a.text)).isEmpty
    · rw [if_pos hemp] at hseg
      exact ih seg hseg
    · rw [if_neg hemp] at hseg
      rcases List.mem_cons.mp hseg with h | h
      · subst h
        have hne : trimJs (collapseWs a.text) ≠ [] := by
          simpa [List.isEmpty_iff] using hemp
        refine ⟨?_, trimJs_good hne⟩
        dsimp only
        split
        · next hge =>
          split
          · next hgt => simpa using hgt
          · next hngt =>
            have : a.start_time = a.end_time := le_antisymm (not_lt.mp hngt) hge
            simp only []
            linarith
        · next hlt =>
          simpa using not_le.mp (fun hc => hlt (by simpa using hc))
      · exact ih seg h

theorem mergeLoop_good (minD thresh : ℚ) :
    ∀ (rest : List SegQ) (cur : SegQ),
      cur.start_time < cur.end_time → goodT cur.text →
      (∀ s ∈ rest, s.start_time < s.end_time ∧ goodT s.text) →
      (∀ s ∈ rest, cur.start_time ≤ s.start_time) →
      List.Pairwise (fun a b => a.start_time ≤ b.start_time) rest →
      ∀ out ∈ mergeLoop minD thresh cur rest,
        out.start_time < out.end_time ∧ trimJs out.text ≠ [] := by
  intro rest
  induction rest with
  | nil =>
    intro cur hlt hgood _ _ _ out hout
    simp only [mergeLoop, List.mem_singleton] at hout
    subst hout
    exact ⟨hlt, by rw [trimJs_of_good hgood]; exact hgood.1⟩
  | cons nextSeg rest ih =>
    intro cur hlt hgood hrest hstarts hpw out hout
    unfold mergeLoop at hout
    have hnext := hrest nextSeg (List.mem_cons_self _ _)
    have hcurle : cur.start_time ≤ nextSeg.start_time :=
      hstarts nextSeg (List.mem_cons_self _ _)
    rw [List.pairwise_cons] at hpw
    split at hout
    · -- absorbed: the merged segment keeps cur's start and takes next's end
      refine ih (absorbSeg cur nextSeg) ?_ ?_ ?_ ?_ hpw.2 out hout
      · show cur.start_time < nextSeg.end_time
        exact lt_of_le_of_lt hcurle hnext.1
      · exact goodT_join hgood hnext.2
      · exact fun s hs => hrest s (List.mem_cons_of_mem _ hs)
      · intro s hs
        exact le_trans hcurle (hpw.1 s hs)
    · rcases List.mem_cons.mp hout with h | h
      · subst h
        exact ⟨hlt, by rw [trimJs_of_good hgood]; exact hgood.1⟩
      · exact ih nextSeg hnext.1 hnext.2
          (fun s hs => hrest s (List.mem_cons_of_mem _ hs)) hpw.1 hpw.2 out h

/-- C4 counterexample: on input segments out of chronological order
(`[{5,5.2,"a"}, {1,2,"b"}]`) the short-segment merge produces the segment
`{5,2,"a b"}`, whose start time is after its end time, so the invariant
does not hold for every input list. -/
theorem normalize_invariant_cex :
    normalizeSegments normalizeCexSegs 0.5 1.0 = [⟨"a b".data, 5, 2⟩] ∧
    ∃ seg ∈ normalizeSegments normalizeCexSegs 0.5 1.0,
      ¬ seg.start_time < seg.end_time := by
  have h : normalizeSegments normalizeCexSegs 0.5 1.0 = [⟨"a b".data, 5, 2⟩] := by
    simp [normalizeSegments, normalizeCexSegs, normalizeClean,
      mergeShortSegments, mergeLoop, absorbSeg, collapseWs, trimJs, isSpaceJs]
    norm_num
  refine ⟨h, ⟨"a b".data, 5, 2⟩, by rw [h]; exact List.mem_singleton_self _, ?_⟩
  norm_num

/-- C4 (amended): whenever the cleaned, time-repaired segments are in
nondecreasing start-time order (as they are for any chronological
transcript), every segment returned by the normalizer satisfies
`start_time < end_time` and has non-empty text after trimming; the
time-repair examples hold unconditionally: `{5,5}` becomes `{5,5.1}` and
`{10,3}` becomes `{3,10}`. -/
theorem normalize_invariant :
    (∀ (segs : List SegQ) (minD thresh : ℚ),
      List.Chain' (fun a b => a.start_time ≤ b.start_time) (normalizeClean segs) →
      ∀ seg ∈ normalizeSegments segs minD thresh,
        seg.start_time < seg.end_time ∧ trimJs seg.text ≠ []) ∧
    normalizeSegments [⟨"a".data, 5, 5⟩] 0.5 1.0 = [⟨"a".data, 5, 5.1⟩] ∧
    normalizeSegments [⟨"a".data, 10, 3⟩] 0.5 1.0 = [⟨"a".data, 3, 10⟩] := by
  refine ⟨?_, ?_, ?_⟩
  · intro segs minD thresh hchain seg hseg
    haveI : IsTrans SegQ (fun a b => a.start_time ≤ b.start_time) :=
      ⟨fun _ _ _ h1 h2 => le_trans h1 h2⟩
    have hpw := List.chain'_iff_pairwise.mp hchain
    unfold normalizeSegments at hseg
    split at hseg
    · rcases hcl : normalizeClean segs with _ | ⟨c, rest⟩
      · rw [hcl] at hseg
        simp [mergeShortSegments] at hseg
      · rw [hcl] at hseg hpw
        rw [List.pairwise_cons] at hpw
        have hgood := normalizeClean_good segs
        rw [hcl] at hgood
        have hc := hgood c (List.mem_cons_self _ _)
        exact mergeLoop_good minD thresh rest c hc.1 hc.2
          (fun s hs => hgood s (List.mem_cons_of_mem _ hs)) hpw.1 hpw.2 seg hseg
    · have h := normalizeClean_good segs seg hseg
      exact ⟨h.1, by rw [trimJs_of_good h.2]; exact h.2.1⟩
  · simp [normalizeSegments, normalizeClean, mergeShortSegments,
      mergeLoop, collapseWs, trimJs, isSpaceJs]
    norm_num
  · simp [normalizeSegments, normalizeClean, mergeShortSegments,
      mergeLoop, collapseWs, trimJs, isSpaceJs]
    norm_num

/-- Witness for the amended C4 on a chronological two-segment input. -/
theorem normalize_invariant_witness :
    List.Chain' (fun a b : SegQ => a.start_time ≤ b.start_time)
      (normalizeClean [⟨"a".data, 0, 1⟩, ⟨"b".data, 1, 2⟩]) ∧
    ∀ seg ∈ normalizeSegments [⟨"a".data, 0, 1⟩, ⟨"b".data, 1, 2⟩] 0.5 1.0,
      seg.start_time < seg.end_time ∧ trimJs seg.text ≠ [] := by
  have hval : normalizeClean [⟨"a".data, 0, 1⟩, ⟨"b".data, 1, 2⟩] =
      [⟨"a".data, 0, 1⟩, ⟨"b".data, 1, 2⟩] := by decide
  have hchain : List.Chain' (fun a b : SegQ => a.start_time ≤ b.start_time)
      (normalizeClean [⟨"a".data, 0, 1⟩, ⟨"b".data, 1, 2⟩]) := by
    rw [hval]
    simp only [List.chain'_cons, List.chain'_singleton, and_true]
    decide
  exact ⟨hchain, normalize_invariant.1 _ 0.5 1.0 hchain⟩

/-- C7 counterexample: a timestamp with the right colon-token count but
numeric garbage does not raise any error — `parseInt`/`parseFloat` yield
`NaN` and the timestamp functions return it as a value (`"::"` has three
empty tokens, parses to `NaN` in both grammars). -/
theorem timestamp_numeric_no_error_cex :
    parseVttTimestamp "::".data = .ok none ∧
    parseSrtTimestamp "::".data = .ok none := by
  exact ⟨by decide, by decide⟩

/-- C7 (amended): timestamp parsing fails with the timestamp-format error
carrying the raw offending string exactly on a wrong colon-token count
(VTT: other than 2 or 3 colon-separated parts; SRT: other than 3 after the
comma is normalized); numeric content that does not parse yields `NaN`
without raising.  The error aborts parsing of the whole file, shown on a
VTT and an SRT file each containing one malformed timestamp. -/
theorem timestampFormat_error_on_token_count :
    (∀ ts : Text, (splitChar ':' (trimJs ts)).length ≠ 2 →
      (splitChar ':' (trimJs ts)).length ≠ 3 →
      parseVttTimestamp ts = .error (.timestampFormat ts)) ∧
    (∀ ts : Text, (splitChar ':' (replaceFirst ',' '.' (trimJs ts))).length ≠ 3 →
      parseSrtTimestamp ts = .error (.timestampFormat ts)) ∧
    parseVtt vttBadTsFile = .error (.timestampFormat "0:0:0:0".data) ∧
    parseSrt srtBadTsFile = .error (.timestampFormat ":::::".data) := by
  refine ⟨?_, ?_, by decide, by decide⟩
  · intro ts h2 h3
    unfold parseVttTimestamp
    dsimp only
    rcases hp : splitChar ':' (trimJs ts) with _ | ⟨a, _ | ⟨b, _ | ⟨c, _ | ⟨d, t⟩⟩⟩⟩
    · rfl
    · rfl
    · rw [hp] at h2; simp at h2
    · rw [hp] at h3; simp at h3
    · rfl
  · intro ts h3
    unfold parseSrtTimestamp
    dsimp only
    rcases hp : splitChar ':' (replaceFirst ',' '.' (trimJs ts)) with
      _ | ⟨a, _ | ⟨b, _ | ⟨c, _ | ⟨d, t⟩⟩⟩⟩
    · rfl
    · rfl
    · rfl
    · rw [hp] at h3; simp at h3
    · rfl

/-- Witness for the amended C7 on concrete malformed timestamps. -/
theorem timestampFormat_error_on_token_count_witness :
    ((splitChar ':' (trimJs "1:2:3:4".data)).length ≠ 2) ∧
    parseVttTimestamp "1:2:3:4".data = .error (.timestampFormat "1:2:3:4".data) ∧
    ((splitChar ':' (replaceFirst ',' '.' (trimJs ":::::".data))).length ≠ 3) ∧
    parseSrtTimestamp ":::::".data = .error (.timestampFormat ":::::".data) :=
  ⟨by decide,
   timestampFormat_error_on_token_count.1 "1:2:3:4".data (by decide) (by decide),
   by decide,
   timestampFormat_error_on_token_count.2.1 ":::::".data (by decide)⟩

/-- C2 counterexample: a well-formed format-A (VTT) file with two
non-overlapping cues of ordinary text parses to zero segments, not two:
the cue-text filter of `parseVtt` only ever pushes lines carrying inline
timestamps, so plain cue text lines are dropped (and the built-in
deduplication can drop further cues even when text lines are kept). -/
theorem parseVtt_wellformed_cues_cex :
    parseVtt exampleVtt2Cues = .ok [] := by decide

theorem takeWhile_append_all {p : Char → Bool} :
    ∀ {xs : Text} (ys : Text), (∀ c ∈ xs, p c = true) →
      (xs ++ ys).takeWhile p = xs ++ ys.takeWhile p := by
  intro xs
  induction xs with
  | nil => intro ys _; rfl
  | cons a t ih =>
    intro ys h
    rw [List.cons_append, List.takeWhile_cons, if_pos (h a (List.mem_cons_self _ _)),
      ih ys (fun c hc => h c (List.mem_cons_of_mem _ hc))]
    rfl

theorem dropWhile_append_all {p : Char → Bool} :
    ∀ {xs : Text} (ys : Text), (∀ c ∈ xs, p c = true) →
      (xs ++ ys).dropWhile p = ys.dropWhile p := by
  intro xs
  induction xs with
  | nil => intro ys _; rfl
  | cons a t ih =>
    intro ys h
    rw [List.cons_append, List.dropWhile_cons, if_pos (h a (List.mem_cons_self _ _)),
      ih ys (fun c hc => h c (List.mem_cons_of_mem _ hc))]

theorem takeWhile_eq_self_all {p : Char → Bool} :
    ∀ {xs : Text}, (∀ c ∈ xs, p c = true) → xs.takeWhile p = xs := by
  intro xs
  induction xs with
  | nil => intro _; rfl
  | cons a t ih =>
    intro h
    rw [List.takeWhile_cons, if_pos (h a (List.mem_cons_self _ _)),
      ih (fun c hc => h c (List.mem_cons_of_mem _ hc))]

theorem takeWhile_cons_neg {p : Char → Bool} {a : Char} (t : Text)
    (h : p a = false) : (a :: t).takeWhile p = [] := by
  rw [List.takeWhile_cons, if_neg (by simp [h])]

theorem dropWhile_cons_neg {p : Char → Bool} {a : Char} (t : Text)
    (h : p a = false) : (a :: t).dropWhile p = a :: t := by
  rw [List.dropWhile_cons, if_neg (by simp [h])]

theorem digitChar_isDigit {d : Nat} (h : d < 10) :
    (Nat.digitChar d).isDigit = true := by
  interval_cases d <;> decide

theorem digitChar_toNat {d : Nat} (h : d < 10) :
    (Nat.digitChar d).toNat = 48 + d := by
  interval_cases d <;> decide

theorem isDigit_facts {c : Char} (h : c.isDigit = true) :
    isSpaceJs c = false ∧ c ≠ ':' ∧ c ≠ ',' ∧ c ≠ '.' ∧ c ≠ '\n' ∧
      c ≠ '-' ∧ c ≠ '+' ∧ c ≠ '<' ∧ c ≠ '\x7b' := by
  have hb : 48 ≤ c.toNat ∧ c.toNat ≤ 57 := by
    unfold Char.isDigit at h
    simp only [Bool.and_eq_true, decide_eq_true_eq] at h
    exact ⟨h.1, h.2⟩
  refine ⟨?_, ?_, ?_, ?_, ?_, ?_, ?_, ?_, ?_⟩
  · unfold isSpaceJs
    simp only [Bool.or_eq_false_iff, decide_eq_false_iff_not]
    refine ⟨⟨⟨?_, ?_⟩, ?_⟩, ?_⟩ <;> (intro habs; subst habs; exact absurd hb (by decide))
  all_goals (intro habs; subst habs; exact absurd hb (by decide))

theorem pad2_digits {n : Nat} (h : n ≤ 99) : ∀ c ∈ pad2 n, c.isDigit = true := by
  intro c hc
  unfold pad2 at hc
  simp only [List.mem_cons, List.not_mem_nil, or_false] at hc
  rcases hc with rfl | rfl
  · exact digitChar_isDigit (by omega)
  · exact digitChar_isDigit (Nat.mod_lt _ (by omega))

theorem pad3_digits {n : Nat} (h : n ≤ 999) : ∀ c ∈ pad3 n, c.isDigit = true := by
  intro c hc
  unfold pad3 at hc
  simp only [List.mem_cons, List.not_mem_nil, or_false] at hc
  rcases hc with rfl | rfl | rfl
  · exact digitChar_isDigit (by omega)
  · exact digitChar_isDigit (Nat.mod_lt _ (by omega))
  · exact digitChar_isDigit (Nat.mod_lt _ (by omega))

theorem digitsVal_pad2 {n : Nat} (h : n ≤ 99) : digitsVal (pad2 n) = n := by
  unfold pad2 digitsVal
  simp only [List.foldl_cons, List.foldl_nil]
  rw [digitChar_toNat (by omega), digitChar_toNat (Nat.mod_lt _ (by omega))]
  omega

theorem digitsVal_pad3 {n : Nat} (h : n ≤ 999) : digitsVal (pad3 n) = n := by
  unfold pad3 digitsVal
  simp only [List.foldl_cons, List.foldl_nil]
  rw [digitChar_toNat (by omega), digitChar_toNat (Nat.mod_lt _ (by omega)),
    digitChar_toNat (Nat.mod_lt _ (by omega))]
  omega

theorem parseIntJS_digits {l : Text} (hd : ∀ c ∈ l, c.isDigit = true)
    (hne : l ≠ []) : parseIntJS l = some (digitsVal l : Int) := by
  rcases l with _ | ⟨a, t⟩
  · exact absurd rfl hne
  obtain ⟨hsp, _, _, _, _, hminus, hplus, _, _⟩ :=
    isDigit_facts (hd a (List.mem_cons_self _ _))
  unfold parseIntJS
  simp only [dropWhile_cons_neg _ hsp, List.headD_cons, hminus, hplus,
    takeWhile_eq_self_all hd, decide_False, Bool.or_self, Bool.false_eq_true,
    if_false, List.isEmpty_cons, if_neg]

theorem parseFloatJS_pads {s ms : Nat} (hs : s ≤ 99) (hms : ms ≤ 999) :
    parseFloatJS (pad2 s ++ '.' :: pad3 ms) = some ((s : ℚ) + (ms : ℚ) / 1000) := by
  have hshape : pad2 s ++ '.' :: pad3 ms =
      Nat.digitChar (s / 10) :: Nat.digitChar (s % 10) :: '.' :: pad3 ms := rfl
  obtain ⟨hsp, _, _, _, _, hminus, hplus, _, _⟩ :=
    isDigit_facts (digitChar_isDigit (show s / 10 < 10 by omega))
  have hd1 : (Nat.digitChar (s / 10)).isDigit = true :=
    digitChar_isDigit (by omega)
  have hd2 : (Nat.digitChar (s % 10)).isDigit = true :=
    digitChar_isDigit (Nat.mod_lt _ (by omega))
  unfold parseFloatJS
  rw [hshape]
  simp only [dropWhile_cons_neg _ hsp, List.headD_cons, hminus, hplus,
    decide_False, Bool.or_self, Bool.false_eq_true, if_false]
  rw [List.takeWhile_cons, if_pos hd1, List.takeWhile_cons, if_pos hd2,
    takeWhile_cons_neg _ (by decide)]
  have hval2 : digitsVal [Nat.digitChar (s / 10), Nat.digitChar (s % 10)] = s :=
    digitsVal_pad2 hs
  have hlen : (pad3 ms).length = 3 := rfl
  simp only [List.length_cons, List.length_nil, List.drop_succ_cons,
    List.drop_zero, List.headD_cons, List.tail_cons, if_true,
    takeWhile_eq_self_all (pad3_digits hms), hval2, digitsVal_pad3 hms, hlen]
  norm_num

theorem replaceFirst_append {xs ys : Text} (h : ',' ∉ xs) :
    replaceFirst ',' '.' (xs ++ ',' :: ys) = xs ++ '.' :: ys := by
  induction xs with
  | nil => simp [replaceFirst]
  | cons a t ih =>
    have ha : a ≠ ',' := fun habs => h (habs ▸ List.mem_cons_self _ _)
    rw [List.cons_append, replaceFirst, if_neg ha,
      ih (fun hm => h (List.mem_cons_of_mem _ hm)), List.cons_append]

theorem splitChar_not_mem {sep : Char} {xs : Text} (h : sep ∉ xs) :
    splitChar sep xs = [xs] := by
  induction xs with
  | nil => rfl
  | cons a t ih =>
    have ha : a ≠ sep := fun habs => h (habs ▸ List.mem_cons_self _ _)
    rw [splitChar, ih (fun hm => h (List.mem_cons_of_mem _ hm))]
    simp [ha]

theorem splitChar_append {sep : Char} {xs ys : Text} (h : sep ∉ xs) :
    splitChar sep (xs ++ sep :: ys) = xs :: splitChar sep ys := by
  induction xs with
  | nil => simp [splitChar]
  | cons a t ih =>
    have ha : a ≠ sep := fun habs => h (habs ▸ List.mem_cons_self _ _)
    rw [List.cons_append, splitChar, ih (fun hm => h (List.mem_cons_of_mem _ hm))]
    simp [ha]

theorem isSrtTsChar_facts {c : Char} (h : isSrtTsChar c = true) :
    isSpaceJs c = false ∧ c ≠ '\n' ∧ c ≠ '-' := by
  unfold isSrtTsChar at h
  simp only [Bool.or_eq_true, decide_eq_true_eq] at h
  rcases h with (h | rfl) | rfl
  · obtain ⟨h1, _, _, _, h5, h6, _⟩ := isDigit_facts h
    exact ⟨h1, h5, h6⟩
  · exact ⟨by decide, by decide, by decide⟩
  · exact ⟨by decide, by decide, by decide⟩

theorem isDigit_isSrtTsChar {c : Char} (h : c.isDigit = true) :
    isSrtTsChar c = true := by
  unfold isSrtTsChar
  simp [h]

theorem renderTs_chars {t : TsComp} (h : validTs t) :
    ∀ c ∈ renderTs t, isSrtTsChar c = true := by
  obtain ⟨hh, hm, hs, hms⟩ := h
  intro c hc
  unfold renderTs at hc
  rcases List.mem_append.mp hc with hc | hc
  · exact isDigit_isSrtTsChar (pad2_digits hh c hc)
  rcases List.mem_cons.mp hc with heq | hc
  · subst heq; rfl
  rcases List.mem_append.mp hc with hc | hc
  · exact isDigit_isSrtTsChar (pad2_digits (by omega : t.m ≤ 99) c hc)
  rcases List.mem_cons.mp hc with heq | hc
  · subst heq; rfl
  rcases List.mem_append.mp hc with hc | hc
  · exact isDigit_isSrtTsChar (pad2_digits (by omega : t.s ≤ 99) c hc)
  rcases List.mem_cons.mp hc with heq | hc
  · subst heq; rfl
  · exact isDigit_isSrtTsChar (pad3_digits hms c hc)

theorem renderTs_ne_nil (t : TsComp) : renderTs t ≠ [] := by
  unfold renderTs pad2
  simp

theorem renderTs_head (t : TsComp) :
    renderTs t = Nat.digitChar (t.h / 10) :: (Nat.digitChar (t.h % 10) ::
      (':' :: (pad2 t.m ++ (':' :: (pad2 t.s ++ (',' :: pad3 t.ms)))))) := rfl

theorem parseSrtTimestamp_renderTs {t : TsComp} (h : validTs t) :
    parseSrtTimestamp (renderTs t) = .ok (some (tsVal t)) := by
  obtain ⟨hh, hm, hs, hms⟩ := h
  have htrim : trimJs (renderTs t) = renderTs t := by
    refine trimJs_of_good ⟨renderTs_ne_nil t, ?_, ?_⟩
    · intro c hc
      rw [renderTs_head, List.head?_cons] at hc
      cases hc
      exact (isDigit_facts (digitChar_isDigit (show t.h / 10 < 10 by omega))).1
    · intro c hc
      have hsuf : pad3 t.ms <:+ renderTs t :=
        ⟨pad2 t.h ++ (':' :: (pad2 t.m ++ (':' :: (pad2 t.s ++ [','])))), by
          unfold renderTs; simp⟩
      rw [getLast?_of_suffix hsuf (by unfold pad3; simp)] at hc
      have hlast : (pad3 t.ms).getLast? = some (Nat.digitChar (t.ms % 10)) := rfl
      rw [hlast] at hc
      cases hc
      exact (isDigit_facts (digitChar_isDigit (Nat.mod_lt _ (by omega)))).1
  have hsplitshape : renderTs t =
      (pad2 t.h ++ (':' :: (pad2 t.m ++ (':' :: pad2 t.s)))) ++ ',' :: pad3 t.ms := by
    unfold renderTs
    simp
  have hnocomma : ',' ∉ pad2 t.h ++ (':' :: (pad2 t.m ++ (':' :: pad2 t.s))) := by
    intro hmem
    rcases List.mem_append.mp hmem with hc | hc
    · exact (isDigit_facts (pad2_digits hh _ hc)).2.2.1 rfl
    rcases List.mem_cons.mp hc with heq | hc
    · exact absurd heq (by decide)
    rcases List.mem_append.mp hc with hc | hc
    · exact (isDigit_facts (pad2_digits (by omega : t.m ≤ 99) _ hc)).2.2.1 rfl
    rcases List.mem_cons.mp hc with heq | hc
    · exact absurd heq (by decide)
    · exact (isDigit_facts (pad2_digits (by omega : t.s ≤ 99) _ hc)).2.2.1 rfl
  have hrepl : replaceFirst ',' '.' (renderTs t) =
      pad2 t.h ++ (':' :: (pad2 t.m ++ (':' :: (pad2 t.s ++ ('.' :: pad3 t.ms))))) := by
    rw [hsplitshape, replaceFirst_append hnocomma]
    simp
  have hnc1 : ':' ∉ pad2 t.h := fun hc =>
    (isDigit_facts (pad2_digits hh _ hc)).2.1 rfl
  have hnc2 : ':' ∉ pad2 t.m := fun hc =>
    (isDigit_facts (pad2_digits (by omega : t.m ≤ 99) _ hc)).2.1 rfl
  have hnc3 : ':' ∉ pad2 t.s ++ '.' :: pad3 t.ms := by
    intro hmem
    rcases List.mem_append.mp hmem with hc | hc
    · exact (isDigit_facts (pad2_digits (by omega : t.s ≤ 99) _ hc)).2.1 rfl
    rcases List.mem_cons.mp hc with heq | hc
    · exact absurd heq (by decide)
    · exact (isDigit_facts (pad3_digits hms _ hc)).2.1 rfl
  have hsplit : splitChar ':' (replaceFirst ',' '.' (trimJs (renderTs t))) =
      [pad2 t.h, pad2 t.m, pad2 t.s ++ '.' :: pad3 t.ms] := by
    rw [htrim, hrepl, splitChar_append hnc1, splitChar_append hnc2,
      splitChar_not_mem hnc3]
  unfold parseSrtTimestamp
  dsimp only
  rw [hsplit]
  dsimp only
  rw [parseIntJS_digits (pad2_digits hh) (by unfold pad2; simp),
    parseIntJS_digits (pad2_digits (by omega : t.m ≤ 99)) (by unfold pad2; simp),
    parseFloatJS_pads (by omega : t.s ≤ 99) hms,
    digitsVal_pad2 hh, digitsVal_pad2 (by omega : t.m ≤ 99)]
  unfold jsMul jsAdd tsVal
  norm_num

theorem trimJs_cons_space_length {a : Char} (r : Text) (ha : isSpaceJs a = true) :
    (trimJs (a :: r)).length < (a :: r).length := by
  unfold trimJs
  rw [List.dropWhile_cons, if_pos ha]
  calc (((r.dropWhile isSpaceJs).reverse.dropWhile isSpaceJs).reverse).length
      = ((r.dropWhile isSpaceJs).reverse.dropWhile isSpaceJs).length :=
        List.length_reverse _
    _ ≤ (r.dropWhile isSpaceJs).reverse.length :=
        (List.dropWhile_suffix _).length_le
    _ = (r.dropWhile isSpaceJs).length := List.length_reverse _
    _ ≤ r.length := (List.dropWhile_suffix _).length_le
    _ < (a :: r).length := by simp

theorem goodT_of_trim_eq {t : Text} (h : trimJs t = t) (hne : t ≠ []) :
    goodT t := by
  have hhead : ∀ c ∈ t.head?, isSpaceJs c = false := by
    intro c hc
    by_contra habs
    rw [Bool.not_eq_false] at habs
    rcases t with _ | ⟨a, r⟩
    · simp at hc
    simp only [List.head?_cons, Option.mem_def, Option.some.injEq] at hc
    subst hc
    have hlt := trimJs_cons_space_length r habs
    rw [h] at hlt
    exact lt_irrefl _ hlt
  refine ⟨hne, hhead, ?_⟩
  intro c hc
  by_contra habs
  rw [Bool.not_eq_false] at habs
  have hdw : t.dropWhile isSpaceJs = t := by
    rcases t with _ | ⟨a, r⟩
    · rfl
    exact dropWhile_cons_neg _ (hhead a rfl)
  rcases hr : t.reverse with _ | ⟨b, rb⟩
  · exact hne (by simpa using congrArg List.reverse hr)
  have hb : t.getLast? = some b := by
    rw [← List.head?_reverse, hr, List.head?_cons]
  rw [hb] at hc
  cases hc
  have hlt : (trimJs t).length < t.length := by
    unfold trimJs
    rw [hdw, hr, List.dropWhile_cons, if_pos habs]
    have hlen : t.length = rb.length + 1 := by
      have := congrArg List.length hr
      simpa using this
    calc ((rb.dropWhile isSpaceJs).reverse).length
        = (rb.dropWhile isSpaceJs).length := List.length_reverse _
      _ ≤ rb.length := (List.dropWhile_suffix _).length_le
      _ < rb.length + 1 := by omega
      _ = t.length := hlen.symm
  rw [h] at hlt
  exact lt_irrefl _ hlt

theorem findSub_isSome_iff : ∀ (l pat : Text),
    (findSub l pat).isSome = true ↔ ∃ pre post, l = pre ++ pat ++ post := by
  intro l
  induction l with
  | nil =>
    intro pat
    unfold findSub
    by_cases hp : pat.isPrefixOf []
    · rw [if_pos hp]
      have hpat : pat = [] := by
        have := List.isPrefixOf_iff_prefix.mp hp
        simpa using this
      subst hpat
      simp
    · rw [if_neg hp]
      simp only [Option.isSome_none, Bool.false_eq_true, false_iff]
      rintro ⟨pre, post, habs⟩
      rcases pre with _ | ⟨x, pre'⟩
      · rcases pat with _ | ⟨y, pat'⟩
        · exact hp (by simp [List.isPrefixOf_iff_prefix])
        · simp at habs
      · simp at habs
  | cons a t ih =>
    intro pat
    unfold findSub
    by_cases hp : pat.isPrefixOf (a :: t)
    · rw [if_pos hp]
      simp only [Option.isSome_some, true_iff]
      obtain ⟨post, hpost⟩ := List.isPrefixOf_iff_prefix.mp hp
      exact ⟨[], post, by simp [hpost.symm]⟩
    · rw [if_neg hp]
      dsimp only
      rw [Option.isSome_map']
      rw [ih pat]
      constructor
      · rintro ⟨pre, post, rfl⟩
        exact ⟨a :: pre, post, rfl⟩
      · rintro ⟨pre, post, heq⟩
        rcases pre with _ | ⟨b, pre'⟩
        · exfalso
          apply hp
          rw [List.isPrefixOf_iff_prefix]
          exact ⟨post, by simpa using heq.symm⟩
        · refine ⟨pre', post, ?_⟩
          simp only [List.cons_append] at heq
          exact (List.cons_eq_cons.mp heq).2

theorem containsStr_iff {l pat : Text} :
    containsStr l pat = true ↔ ∃ pre post, l = pre ++ pat ++ post := by
  unfold containsStr
  exact findSub_isSome_iff l pat

theorem stripGroups_id {opn cls : Char} : ∀ {l : Text}, opn ∉ l →
    stripGroups opn cls l none = l := by
  intro l
  induction l with
  | nil => intro _; rfl
  | cons a t ih =>
    intro h
    have ha : a ≠ opn := fun habs => h (habs ▸ List.mem_cons_self _ _)
    unfold stripGroups
    rw [if_neg ha, ih (fun hm => h (List.mem_cons_of_mem _ hm))]

theorem containsStr_arrow_false_of_digits {l : Text}
    (h : ∀ ch ∈ l, ch.isDigit = true) : containsStr l arrowT = false := by
  by_contra habs
  rw [Bool.not_eq_false] at habs
  obtain ⟨pre, post, rfl⟩ := containsStr_iff.mp habs
  have hmem : '-' ∈ pre ++ arrowT ++ post := by
    refine List.mem_append.mpr (Or.inl ?_)
    refine List.mem_append.mpr (Or.inr ?_)
    unfold arrowT
    simp
  have := h '-' hmem
  simp at this

theorem renderTs_no_nl {t : TsComp} (h : validTs t) : '\n' ∉ renderTs t :=
  fun hm => (isSrtTsChar_facts (renderTs_chars h '\n' hm)).2.1 rfl

theorem tsline_no_nl {t1 t2 : TsComp} (h1 : validTs t1) (h2 : validTs t2) :
    '\n' ∉ renderTs t1 ++ (' ' :: ('-' :: ('-' :: ('>' :: (' ' :: renderTs t2))))) := by
  intro hm
  rcases List.mem_append.mp hm with hc | hc
  · exact renderTs_no_nl h1 hc
  rcases List.mem_cons.mp hc with heq | hc
  · exact absurd heq (by decide)
  rcases List.mem_cons.mp hc with heq | hc
  · exact absurd heq (by decide)
  rcases List.mem_cons.mp hc with heq | hc
  · exact absurd heq (by decide)
  rcases List.mem_cons.mp hc with heq | hc
  · exact absurd heq (by decide)
  rcases List.mem_cons.mp hc with heq | hc
  · exact absurd heq (by decide)
  · exact renderTs_no_nl h2 hc

theorem tsline_has_arrow (t1 t2 : TsComp) :
    containsStr
      (renderTs t1 ++ (' ' :: ('-' :: ('-' :: ('>' :: (' ' :: renderTs t2))))))
      arrowT = true := by
  refine containsStr_iff.mpr ⟨renderTs t1 ++ [' '], ' ' :: renderTs t2, ?_⟩
  unfold arrowT
  simp

theorem tsMatchFirst_tsline {t1 t2 : TsComp} (h1 : validTs t1) (h2 : validTs t2) :
    tsMatchFirst isSrtTsChar
      (renderTs t1 ++ (' ' :: ('-' :: ('-' :: ('>' :: (' ' :: renderTs t2)))))) =
      some (renderTs t1, renderTs t2) := by
  have htry : tsTryAt isSrtTsChar
      (renderTs t1 ++ (' ' :: ('-' :: ('-' :: ('>' :: (' ' :: renderTs t2)))))) =
      some (renderTs t1, renderTs t2) := by
    unfold tsTryAt
    dsimp only
    rw [takeWhile_append_all _ (renderTs_chars h1),
      takeWhile_cons_neg _ (by decide)]
    rw [if_neg (by simpa using renderTs_ne_nil t1)]
    rw [dropWhile_append_all _ (renderTs_chars h1),
      dropWhile_cons_neg _ (by decide : isSrtTsChar ' ' = false)]
    have hsp : List.dropWhile isSpaceJs
        (' ' :: ('-' :: ('-' :: ('>' :: (' ' :: renderTs t2))))) =
        '-' :: ('-' :: ('>' :: (' ' :: renderTs t2))) := by
      rw [List.dropWhile_cons, if_pos (by decide)]
      exact dropWhile_cons_neg _ (by decide)
    rw [hsp]
    rw [if_pos (by unfold arrowT; simp [List.isPrefixOf])]
    have hdrop : List.drop 3 ('-' :: ('-' :: ('>' :: (' ' :: renderTs t2)))) =
        ' ' :: renderTs t2 := rfl
    rw [hdrop]
    have hsp2 : List.dropWhile isSpaceJs (' ' :: renderTs t2) = renderTs t2 := by
      rw [List.dropWhile_cons, if_pos (by decide)]
      rcases hB : renderTs t2 with _ | ⟨b, rb⟩
      · rfl
      have hb : isSrtTsChar b = true := by
        refine renderTs_chars h2 b ?_
        rw [hB]
        exact List.mem_cons_self _ _
      rw [← hB]
      rw [hB]
      exact dropWhile_cons_neg _ (isSrtTsChar_facts hb).1
    rw [hsp2, takeWhile_eq_self_all (renderTs_chars h2)]
    rw [if_neg (by simpa using renderTs_ne_nil t2)]
    simp
  rcases hA : renderTs t1 with _ | ⟨a, ra⟩
  · exact absurd hA (renderTs_ne_nil t1)
  rw [hA, List.cons_append] at htry
  rw [List.cons_append]
  unfold tsMatchFirst
  rw [htry]

theorem renderCue_shape (c : SrtCue) :
    renderCue c = c.idx ++ '\n' ::
      ((renderTs c.startT ++
        (' ' :: ('-' :: ('-' :: ('>' :: (' ' :: renderTs c.endT)))))) ++
        '\n' :: c.text) := by
  unfold renderCue
  simp

theorem renderCue_good (c : SrtCue) (h : WFCue c) : goodT (renderCue c) := by
  obtain ⟨hidxne, hidxd, hv1, hv2, hltv, htne, htr, hnl, hlt2, hbr⟩ := h
  obtain ⟨d, r, hi⟩ : ∃ d r, c.idx = d :: r := by
    rcases hx : c.idx with _ | ⟨d, r⟩
    · exact absurd hx hidxne
    · exact ⟨d, r, rfl⟩
  refine ⟨?_, ?_, ?_⟩
  · unfold renderCue
    simp
  · intro ch hc
    unfold renderCue at hc
    rw [head?_append_of_ne_nil hidxne, hi, List.head?_cons] at hc
    cases hc
    exact (isDigit_facts (hidxd d (hi ▸ List.mem_cons_self _ _))).1
  · intro ch hc
    have hsuf : c.text <:+ renderCue c := by
      refine ⟨c.idx ++ '\n' :: (renderTs c.startT ++
        (' ' :: ('-' :: ('-' :: ('>' :: (' ' :: (renderTs c.endT ++ ['\n']))))))), ?_⟩
      unfold renderCue
      simp
    rw [getLast?_of_suffix hsuf htne] at hc
    exact (goodT_of_trim_eq htr htne).2.2 ch hc

theorem srtBlocks_renderCue (c : SrtCue) (bs : List Text) (h : WFCue c) :
    srtBlocks (renderCue c :: bs) =
      (srtBlocks bs).map (fun rest => cueSeg c :: rest) := by
  obtain ⟨hidxne, hidxd, hv1, hv2, hltv, htne, htr, hnl, hlt2, hbr⟩ := h
  have htrim : trimJs (renderCue c) = renderCue c :=
    trimJs_of_good (renderCue_good c
      ⟨hidxne, hidxd, hv1, hv2, hltv, htne, htr, hnl, hlt2, hbr⟩)
  have hnlidx : '\n' ∉ c.idx := fun hm => (isDigit_facts (hidxd _ hm)).2.2.2.2.1 rfl
  have hlines : splitChar '\n' (trimJs (renderCue c)) =
      [c.idx,
       renderTs c.startT ++ (' ' :: ('-' :: ('-' :: ('>' :: (' ' :: renderTs c.endT))))),
       c.text] := by
    rw [htrim, renderCue_shape, splitChar_append hnlidx,
      splitChar_append (tsline_no_nl hv1 hv2), splitChar_not_mem hnl]
  have hfa : findArrow
      [c.idx,
       renderTs c.startT ++ (' ' :: ('-' :: ('-' :: ('>' :: (' ' :: renderTs c.endT))))),
       c.text] =
      some (renderTs c.startT ++
        (' ' :: ('-' :: ('-' :: ('>' :: (' ' :: renderTs c.endT))))), [c.text]) := by
    unfold findArrow
    rw [containsStr_arrow_false_of_digits hidxd]
    rw [if_neg (by simp)]
    unfold findArrow
    rw [if_pos (tsline_has_arrow c.startT c.endT)]
  have hstrip : trimJs (stripBraces (stripTags (joinSpace [c.text]))) = c.text := by
    have hj : joinSpace [c.text] = c.text := rfl
    rw [hj, stripTags, stripGroups_id hlt2, stripBraces, stripGroups_id hbr, htr]
  have hemp : c.text.isEmpty = false := by
    rcases hx : c.text with _ | ⟨x, r⟩
    · exact absurd hx htne
    · rfl
  conv_lhs => rw [srtBlocks.eq_def]
  dsimp only
  rw [hlines]
  rw [if_neg (by norm_num)]
  rw [hfa]
  dsimp only
  rw [tsMatchFirst_tsline hv1 hv2]
  dsimp only
  rw [parseSrtTimestamp_renderTs hv1, parseSrtTimestamp_renderTs hv2]
  rw [hstrip, hemp]
  rcases hbs : srtBlocks bs with e | rest
  · rfl
  · rfl

theorem srtBlocks_map (cues : List SrtCue) (h : ∀ c ∈ cues, WFCue c) :
    srtBlocks (cues.map renderCue) = .ok (cues.map cueSeg) := by
  induction cues with
  | nil => rfl
  | cons c rest ih =>
    rw [List.map_cons, srtBlocks_renderCue c _ (h c (List.mem_cons_self _ _)),
      ih (fun x hx => h x (List.mem_cons_of_mem _ hx))]
    rfl

theorem sbGo_no_nl : ∀ {b : Text} (t cur : Text), '\n' ∉ b →
    sbGo (b ++ t) cur 0 = sbGo t (b.reverse ++ cur) 0 := by
  intro b
  induction b with
  | nil => intro t cur _; simp
  | cons a b ih =>
    intro t cur h
    have ha : a ≠ '\n' := fun habs => h (habs ▸ List.mem_cons_self _ _)
    rw [List.cons_append]
    show sbGo (a :: (b ++ t)) cur 0 = _
    conv_lhs => rw [sbGo.eq_def]; dsimp only
    rw [if_neg ha, if_neg (show ¬ 2 ≤ 0 by omega)]
    rw [show a :: (List.replicate 0 '\n' ++ cur) = a :: cur from rfl]
    rw [ih t (a :: cur) (fun hm => h (List.mem_cons_of_mem _ hm))]
    rw [show ((a :: b).reverse ++ cur) = b.reverse ++ a :: cur by simp]

theorem sbGo_cons_nl (t cur : Text) (p : Nat) :
    sbGo ('\n' :: t) cur p = sbGo t cur (p + 1) := by
  conv_lhs => rw [sbGo.eq_def]; dsimp only
  rw [if_pos rfl]

theorem sbGo_no_nl1 : ∀ {b : Text} (t cur : Text), '\n' ∉ b → b ≠ [] →
    sbGo (b ++ t) cur 1 = sbGo t (b.reverse ++ '\n' :: cur) 0 := by
  intro b t cur h hne
  rcases b with _ | ⟨a, b'⟩
  · exact absurd rfl hne
  have ha : a ≠ '\n' := fun habs => h (habs ▸ List.mem_cons_self _ _)
  rw [List.cons_append]
  show sbGo (a :: (b' ++ t)) cur 1 = _
  conv_lhs => rw [sbGo.eq_def]; dsimp only
  rw [if_neg ha, if_neg (show ¬ 2 ≤ 1 by omega)]
  rw [show a :: (List.replicate 1 '\n' ++ cur) = a :: ('\n' :: cur) from rfl]
  rw [sbGo_no_nl t (a :: '\n' :: cur) (fun hm => h (List.mem_cons_of_mem _ hm))]
  simp

theorem sbGo_sep {c2 : Char} (rest' cur : Text) (hc2 : c2 ≠ '\n') :
    sbGo ('\n' :: ('\n' :: (c2 :: rest'))) cur 0 =
      cur.reverse :: sbGo rest' [c2] 0 := by
  rw [sbGo_cons_nl, sbGo_cons_nl]
  conv_lhs => rw [sbGo.eq_def]; dsimp only
  rw [if_neg hc2, if_pos (show 2 ≤ 0 + 1 + 1 by omega)]

theorem sbGo_end (cur : Text) : sbGo [] cur 0 = [cur.reverse] := by
  conv_lhs => rw [sbGo.eq_def]; dsimp only
  rw [if_neg (show ¬ 2 ≤ 0 by omega)]
  rfl

theorem sbGo_head_step {d : Char} (tail : Text) (hd : d ≠ '\n') :
    sbGo (d :: tail) [] 0 = sbGo tail [d] 0 := by
  conv_lhs => rw [sbGo.eq_def]; dsimp only
  rw [if_neg hd, if_neg (show ¬ 2 ≤ 0 by omega)]
  rfl

theorem sbGo_renderCue (c : SrtCue) (h : WFCue c) (t cur : Text) :
    sbGo (renderCue c ++ t) cur 0 = sbGo t ((renderCue c).reverse ++ cur) 0 := by
  obtain ⟨hidxne, hidxd, hv1, hv2, hltv, htne, htr, hnl, hlt2, hbr⟩ := h
  have hnlidx : '\n' ∉ c.idx := fun hm => (isDigit_facts (hidxd _ hm)).2.2.2.2.1 rfl
  have htsnl : '\n' ∉ renderTs c.startT ++
      (' ' :: ('-' :: ('-' :: ('>' :: (' ' :: renderTs c.endT))))) :=
    tsline_no_nl hv1 hv2
  have htsne : renderTs c.startT ++
      (' ' :: ('-' :: ('-' :: ('>' :: (' ' :: renderTs c.endT))))) ≠ [] := by
    rcases hA : renderTs c.startT with _ | ⟨a, ra⟩
    · exact absurd hA (renderTs_ne_nil c.startT)
    · simp
  rw [renderCue_shape]
  rw [show (c.idx ++ '\n' ::
      ((renderTs c.startT ++
        (' ' :: ('-' :: ('-' :: ('>' :: (' ' :: renderTs c.endT)))))) ++
        '\n' :: c.text)) ++ t =
    c.idx ++ ('\n' ::
      ((renderTs c.startT ++
        (' ' :: ('-' :: ('-' :: ('>' :: (' ' :: renderTs c.endT)))))) ++
        ('\n' :: (c.text ++ t)))) by simp]
  rw [sbGo_no_nl _ _ hnlidx, sbGo_cons_nl]
  rw [sbGo_no_nl1 _ _ htsnl htsne, sbGo_cons_nl]
  rw [sbGo_no_nl1 _ _ hnl htne]
  congr 1
  simp

theorem renderSrt_cons_cons (c c2 : SrtCue) (rest : List SrtCue) :
    renderSrt (c :: c2 :: rest) =
      renderCue c ++ ('\n' :: ('\n' :: renderSrt (c2 :: rest))) := by
  show interc ['\n', '\n'] ((c :: c2 :: rest).map renderCue) = _
  rw [List.map_cons, List.map_cons]
  show (renderCue c ++ ['\n', '\n']) ++
      interc ['\n', '\n'] (renderCue c2 :: rest.map renderCue) = _
  rw [List.append_assoc]
  rfl

theorem splitBlocks_renderSrt : ∀ (cues : List SrtCue), cues ≠ [] →
    (∀ c ∈ cues, WFCue c) →
    splitBlocks (renderSrt cues) = cues.map renderCue := by
  intro cues
  induction cues with
  | nil => intro h _; exact absurd rfl h
  | cons c rest ih =>
    intro _ hwf
    have hc := hwf c (List.mem_cons_self _ _)
    rcases rest with _ | ⟨c2, rest'⟩
    · show sbGo (renderSrt [c]) [] 0 = [renderCue c]
      have hr : renderSrt [c] = renderCue c := rfl
      rw [hr, ← List.append_nil (renderCue c), sbGo_renderCue c hc, sbGo_end]
      simp
    · have hc2 := hwf c2 (List.mem_cons_of_mem _ (List.mem_cons_self _ _))
      obtain ⟨d, r, hi⟩ : ∃ d rr, c2.idx = d :: rr := by
        rcases hx : c2.idx with _ | ⟨d, rr⟩
        · exact absurd hx hc2.1
        · exact ⟨d, rr, rfl⟩
      have hd : d ≠ '\n' :=
        (isDigit_facts (hc2.2.1 d (hi ▸ List.mem_cons_self _ _))).2.2.2.2.1
      obtain ⟨tl, htl⟩ : ∃ tl, renderSrt (c2 :: rest') = renderCue c2 ++ tl := by
        rcases rest' with _ | ⟨c3, rest''⟩
        · exact ⟨[], by rw [List.append_nil]; rfl⟩
        · exact ⟨'\n' :: ('\n' :: renderSrt (c3 :: rest'')),
            renderSrt_cons_cons c2 c3 rest''⟩
      have hfull : renderSrt (c2 :: rest') = d ::
          ((r ++ '\n' ::
            ((renderTs c2.startT ++
              (' ' :: ('-' :: ('-' :: ('>' :: (' ' :: renderTs c2.endT)))))) ++
              '\n' :: c2.text)) ++ tl) := by
        rw [htl, renderCue_shape, hi]
        simp
      show sbGo (renderSrt (c :: c2 :: rest')) [] 0 = _
      rw [renderSrt_cons_cons c c2 rest']
      rw [sbGo_renderCue c hc]
      rw [hfull, sbGo_sep _ _ hd]
      have htail : sbGo ((r ++ '\n' ::
          ((renderTs c2.startT ++
            (' ' :: ('-' :: ('-' :: ('>' :: (' ' :: renderTs c2.endT)))))) ++
            '\n' :: c2.text)) ++ tl) [d] 0 =
          splitBlocks (renderSrt (c2 :: rest')) := by
        show _ = sbGo (renderSrt (c2 :: rest')) [] 0
        rw [hfull, sbGo_head_step _ hd]
      rw [htail, ih (by simp) (fun x hx => hwf x (List.mem_cons_of_mem _ hx))]
      simp

theorem renderSrt_good : ∀ (cues : List SrtCue), cues ≠ [] →
    (∀ c ∈ cues, WFCue c) → goodT (renderSrt cues) := by
  intro cues
  induction cues with
  | nil => intro h _; exact absurd rfl h
  | cons c rest ih =>
    intro _ hwf
    have hc := renderCue_good c (hwf c (List.mem_cons_self _ _))
    rcases rest with _ | ⟨c2, rest'⟩
    · exact hc
    · have hrec := ih (by simp) (fun x hx => hwf x (List.mem_cons_of_mem _ hx))
      rw [renderSrt_cons_cons]
      refine ⟨by simp, ?_, ?_⟩
      · rw [head?_append_of_ne_nil hc.1]
        exact hc.2.1
      · have hs : renderSrt (c2 :: rest') <:+
            renderCue c ++ ('\n' :: ('\n' :: renderSrt (c2 :: rest'))) :=
          ⟨renderCue c ++ ['\n', '\n'], by simp⟩
        rw [getLast?_of_suffix hs hrec.1]
        exact hrec.2.2

/-- C2: parsing a rendered well-formed caption file of N non-overlapping
cues yields exactly the N corresponding segments, in source order, each
with a numeric start time strictly below its end time.  This holds for the
SRT grammar (`parseSrt`); the original claim's VTT half fails, because
`parseVtt` ignores plain cue text lines carrying no inline timestamp
markers (see the counterexample on `exampleVtt2Cues`). -/
theorem parseSrt_roundtrip (cues : List SrtCue)
    (hwf : ∀ c ∈ cues, WFCue c) (hno : List.Chain' cueNonOverlap cues) :
    parseSrt (renderSrt cues) = .ok (cues.map cueSeg) ∧
    ∀ seg ∈ cues.map cueSeg, ∃ q1 q2 : ℚ,
      seg.start_time = some q1 ∧ seg.end_time = some q2 ∧ q1 < q2 := by
  constructor
  · rcases cues with _ | ⟨c, rest⟩
    · rfl
    · have hne : (c :: rest) ≠ [] := by simp
      show srtBlocks (splitBlocks (trimJs (renderSrt (c :: rest)))) = _
      rw [trimJs_of_good (renderSrt_good _ hne hwf),
        splitBlocks_renderSrt _ hne hwf, srtBlocks_map _ hwf]
  · intro seg hseg
    obtain ⟨cx, hcx, rfl⟩ := List.mem_map.mp hseg
    exact ⟨tsVal cx.startT, tsVal cx.endT, rfl, rfl, (hwf cx hcx).2.2.2.2.1⟩

theorem parseSrt_roundtrip_witness :
    (∀ c ∈ srtExampleCues, WFCue c) ∧
    List.Chain' cueNonOverlap srtExampleCues ∧
    parseSrt (renderSrt srtExampleCues) = .ok (srtExampleCues.map cueSeg) := by
  have hwf : ∀ c ∈ srtExampleCues, WFCue c := by
    intro c hc
    simp only [srtExampleCues, List.mem_cons, List.not_mem_nil, or_false] at hc
    rcases hc with rfl | rfl
    · exact ⟨by decide, by decide, by decide, by decide, by norm_num [tsVal],
        by decide, by decide, by decide, by decide, by decide⟩
    · exact ⟨by decide, by decide, by decide, by decide, by norm_num [tsVal],
        by decide, by decide, by decide, by decide, by decide⟩
  have hno : List.Chain' cueNonOverlap srtExampleCues := by
    simp only [srtExampleCues, List.chain'_cons, List.chain'_singleton,
      and_true]
    unfold cueNonOverlap tsVal
    norm_num
  exact ⟨hwf, hno, (parseSrt_roundtrip srtExampleCues hwf hno).1⟩
